import Mathlib

/-!
# Verification of the `b24api` pagination/batching engine

A shallow embedding, in Lean 4, of the core of the `b24api` Python library
(`src/b24api/api.py`, `src/b24api/entity.py`, `src/b24api/query.py`,
`src/b24api/settings.py`, `src/b24api/error.py`), together with theorems
settling the frozen claims about its specification.

Modelling conventions used throughout:

* Python `dict`s are modelled as association lists (`List (String × _)`);
  insertion order is significant in Python 3.7+ and is preserved here.
* Python exceptions are modelled by an error type `BError`; functions that can
  raise return `Except BError _`.  A generator that yields items and then
  raises is modelled as returning just the error (the claims under study only
  concern complete runs or the raised error itself).
* Machine integers are arbitrary-precision in Python, so `Nat`/`Int` are used
  directly (ids, totals and offsets in this API are natural numbers).
* The HTTP server is modelled as a pure oracle function handed to each
  strategy; the "consistent dataset served page-wise" of the claims is a
  concrete oracle computed from a dataset, mirroring the mock servers of
  `api_test.py`.
-/

namespace B24

/-- The error taxonomy of the library.  Mirrors `error.py` together with the
internal errors raised in `api.py`:
`RetryHTTPStatusError`, plain `httpx.HTTPStatusError`, `RetryApiResponseError`,
`ApiResponseError`, transport-level errors (`httpx.TransportError`,
`h2.exceptions.ProtocolError`), `ValueError`/`TypeError` internal consistency
errors, and `AttributeError` (attribute access on a model that lacks it). -/
inductive BError where
  | retryHttp (status : Nat)
  | fatalHttp (status : Nat)
  | retryApi (code : String)
  | fatalApi (code : String)
  | transport (msg : String)
  | consistency (msg : String)
  | attrError (msg : String)
deriving DecidableEq, Repr

/-- Which errors the retry decorator retries: the `exceptions` tuple passed to
`retry` in `Bitrix24.__init__` (`api.py` lines 28-42): `httpx.TransportError`,
`h2.exceptions.ProtocolError`, `RetryHTTPStatusError`, `RetryApiResponseError`. -/
def BError.retryable : BError → Bool
  | .retryHttp _ => true
  | .retryApi _ => true
  | .transport _ => true
  | _ => false

/-- Holds for the error classes that `ErrorResponse.raise_error` raises
(API errors carrying a code and description). -/
def BError.isApi : BError → Bool
  | .retryApi _ => true
  | .fatalApi _ => true
  | _ => false

def BError.isHttp : BError → Bool
  | .retryHttp _ => true
  | .fatalHttp _ => true
  | _ => false

def BError.isConsistency : BError → Bool
  | .consistency _ => true
  | _ => false

/-- Python's `range(start, stop, step)` for a positive step, as a list.
Written in closed form (`ceil((stop - start) / step)` entries) so that it
evaluates by kernel reduction; `pyRange_eq_nil_of_le` and `pyRange_eq_cons`
recover the recursive characterization. -/
def pyRange (start stop step : Nat) : List Nat :=
  if step = 0 then []
  else (List.range ((stop - start + step - 1) / step)).map (fun i => start + step * i)

theorem pyRange_eq_nil_of_le {start stop step : Nat} (h : stop ≤ start) :
    pyRange start stop step = [] := by
  unfold pyRange
  by_cases hz : step = 0
  · simp [hz]
  · rw [if_neg hz]
    have h0 : stop - start = 0 := by omega
    rw [h0]
    have : (0 + step - 1) / step = 0 := Nat.div_eq_of_lt (by omega)
    rw [this]
    simp

theorem pyRange_eq_cons {start stop step : Nat} (h1 : start < stop) (h2 : step ≠ 0) :
    pyRange start stop step = start :: pyRange (start + step) stop step := by
  unfold pyRange
  rw [if_neg h2, if_neg h2]
  have hn : (stop - start + step - 1) / step = (stop - (start + step) + step - 1) / step + 1 := by
    set a := stop - start with ha
    have ha1 : 1 ≤ a := by omega
    by_cases hle : a ≤ step
    · have e1 : stop - (start + step) = 0 := by omega
      rw [e1]
      have e2 : (0 + step - 1) / step = 0 := Nat.div_eq_of_lt (by omega)
      rw [e2]
      have e3 : a + step - 1 = (a - 1) + step := by omega
      rw [e3, Nat.add_div_right _ (by omega)]
      have : (a - 1) / step = 0 := Nat.div_eq_of_lt (by omega)
      omega
    · have e1 : stop - (start + step) = a - step := by omega
      rw [e1]
      have e3 : a + step - 1 = (a - step + step - 1) + step := by omega
      rw [e3, Nat.add_div_right _ (by omega)]
  rw [hn, List.range_succ_eq_map]
  simp only [List.map_cons, List.map_map, Nat.mul_zero, Nat.add_zero]
  have : ((fun i => start + step * i) ∘ Nat.succ) = (fun i => start + step + step * i) := by
    funext i
    simp [Nat.mul_succ]
    ring
  rw [this]

theorem pyRange_length {start stop step : Nat} (h : step ≠ 0) :
    (pyRange start stop step).length = (stop - start + step - 1) / step := by
  unfold pyRange
  rw [if_neg h]
  simp

/-- Chunking in the style of itertools islice, used by `Bitrix24.batch`
(`api.py` lines 89-94): consume the request stream in chunks of at most
`bs` requests.  A chunk size of `0` consumes nothing (the Python loop would
stop at once on an empty first slice).  Written in closed form for kernel
reducibility; `chunkList_eq_cons` recovers the recursive characterization. -/
def chunkList (bs : Nat) (l : List α) : List (List α) :=
  if bs = 0 then []
  else (List.range ((l.length + bs - 1) / bs)).map (fun i => (l.drop (bs * i)).take bs)

theorem chunkList_nil (bs : Nat) : chunkList bs ([] : List α) = [] := by
  unfold chunkList
  by_cases hz : bs = 0
  · simp [hz]
  · rw [if_neg hz]
    simp only [List.length_nil]
    have : (0 + bs - 1) / bs = 0 := Nat.div_eq_of_lt (by omega)
    rw [this]
    simp

theorem chunkList_eq_cons {bs : Nat} (hbs : bs ≠ 0) {l : List α} (hl : l ≠ []) :
    chunkList bs l = l.take bs :: chunkList bs (l.drop bs) := by
  unfold chunkList
  rw [if_neg hbs, if_neg hbs]
  have hlen : 1 ≤ l.length := by
    cases l with
    | nil => exact absurd rfl hl
    | cons x t => simp
  have hn : (l.length + bs - 1) / bs = ((l.drop bs).length + bs - 1) / bs + 1 := by
    rw [List.length_drop]
    set a := l.length with ha
    by_cases hle : a ≤ bs
    · have e1 : a - bs = 0 := by omega
      rw [e1]
      have e2 : (0 + bs - 1) / bs = 0 := Nat.div_eq_of_lt (by omega)
      rw [e2]
      have e3 : a + bs - 1 = (a - 1) + bs := by omega
      rw [e3, Nat.add_div_right _ (by omega)]
      have : (a - 1) / bs = 0 := Nat.div_eq_of_lt (by omega)
      omega
    · have e3 : a + bs - 1 = (a - bs + bs - 1) + bs := by omega
      rw [e3, Nat.add_div_right _ (by omega)]
  rw [hn, List.range_succ_eq_map]
  simp only [List.map_cons, List.map_map, Nat.mul_zero, List.drop_zero]
  have : ((fun i => (l.drop (bs * i)).take bs) ∘ Nat.succ) =
      (fun i => ((l.drop bs).drop (bs * i)).take bs) := by
    funext i
    simp only [Function.comp_apply, List.drop_drop, Nat.mul_succ]
    rw [Nat.add_comm (bs * i) bs]
  rw [this]

theorem chunkList_flatten {bs : Nat} (hbs : 1 ≤ bs) (l : List α) :
    (chunkList bs l).flatten = l := by
  by_cases hl : l = []
  · subst hl
    simp [chunkList_nil]
  · rw [chunkList_eq_cons (by omega) hl]
    rw [List.flatten_cons, chunkList_flatten hbs (l.drop bs)]
    exact List.take_append_drop bs l
termination_by l.length
decreasing_by
  have hlen : 1 ≤ l.length := by
    cases l with
    | nil => exact absurd rfl hl
    | cons x t => simp
  simp only [List.length_drop]
  omega

/-- The batch executor applied to a pure, error-free per-request oracle:
`Bitrix24.batch` chunks the request stream and `Bitrix24._batch` executes every
request of a chunk in submission order (server-side fan-out), returning the
per-request responses in that order.  With no failing request this is exactly
chunking + mapping the oracle. -/
def batchCalls (call : α → β) (bs : Nat) (reqs : List α) : List β :=
  ((chunkList bs reqs).map (fun chunk => chunk.map call)).flatten

theorem batchCalls_eq_map {bs : Nat} (hbs : 1 ≤ bs) (call : α → β) (reqs : List α) :
    batchCalls call bs reqs = reqs.map call := by
  unfold batchCalls
  rw [← List.map_flatten, chunkList_flatten hbs]

/-- Python's `max(xs, default=None)` on a list of naturals. -/
def pyMax? : List Nat → Option Nat
  | [] => none
  | x :: t =>
    match pyMax? t with
    | none => some x
    | some m => some (max x m)

/-- Python's `min(xs, default=None)` on a list of naturals. -/
def pyMin? : List Nat → Option Nat
  | [] => none
  | x :: t =>
    match pyMin? t with
    | none => some x
    | some m => some (min x m)

theorem pyMax?_eq_none_iff {l : List Nat} : pyMax? l = none ↔ l = [] := by
  cases l with
  | nil => simp [pyMax?]
  | cons x t =>
    simp only [pyMax?]
    cases pyMax? t <;> simp

theorem pyMin?_eq_none_iff {l : List Nat} : pyMin? l = none ↔ l = [] := by
  cases l with
  | nil => simp [pyMin?]
  | cons x t =>
    simp only [pyMin?]
    cases pyMin? t <;> simp

theorem pyMax?_mem {l : List Nat} : ∀ {m : Nat}, pyMax? l = some m → m ∈ l := by
  induction l with
  | nil => intro m h; simp [pyMax?] at h
  | cons x t ih =>
    intro m h
    simp only [pyMax?] at h
    cases ht : pyMax? t with
    | none =>
      rw [ht] at h
      simp only [Option.some.injEq] at h
      simp [← h]
    | some m' =>
      rw [ht] at h
      simp only [Option.some.injEq] at h
      rcases max_choice x m' with hc | hc
      · rw [hc] at h
        simp [← h]
      · rw [hc] at h
        exact List.mem_cons_of_mem _ (ih (h ▸ ht))

theorem le_pyMax? {l : List Nat} : ∀ {m : Nat}, pyMax? l = some m → ∀ x ∈ l, x ≤ m := by
  induction l with
  | nil => intro m _ x hx; simp at hx
  | cons y t ih =>
    intro m h x hx
    simp only [pyMax?] at h
    cases ht : pyMax? t with
    | none =>
      rw [ht] at h
      simp only [Option.some.injEq] at h
      have : t = [] := pyMax?_eq_none_iff.mp ht
      subst this
      simp at hx
      omega
    | some m' =>
      rw [ht] at h
      simp only [Option.some.injEq] at h
      subst h
      rcases List.mem_cons.mp hx with rfl | hx'
      · exact le_max_left x m'
      · exact le_trans (ih ht x hx') (le_max_right y m')

theorem pyMin?_mem {l : List Nat} : ∀ {m : Nat}, pyMin? l = some m → m ∈ l := by
  induction l with
  | nil => intro m h; simp [pyMin?] at h
  | cons x t ih =>
    intro m h
    simp only [pyMin?] at h
    cases ht : pyMin? t with
    | none =>
      rw [ht] at h
      simp only [Option.some.injEq] at h
      simp [← h]
    | some m' =>
      rw [ht] at h
      simp only [Option.some.injEq] at h
      rcases min_choice x m' with hc | hc
      · rw [hc] at h
        simp [← h]
      · rw [hc] at h
        exact List.mem_cons_of_mem _ (ih (h ▸ ht))

theorem pyMin?_le {l : List Nat} : ∀ {m : Nat}, pyMin? l = some m → ∀ x ∈ l, m ≤ x := by
  induction l with
  | nil => intro m _ x hx; simp at hx
  | cons y t ih =>
    intro m h x hx
    simp only [pyMin?] at h
    cases ht : pyMin? t with
    | none =>
      rw [ht] at h
      simp only [Option.some.injEq] at h
      have : t = [] := pyMin?_eq_none_iff.mp ht
      subst this
      simp at hx
      omega
    | some m' =>
      rw [ht] at h
      simp only [Option.some.injEq] at h
      subst h
      rcases List.mem_cons.mp hx with rfl | hx'
      · exact min_le_left x m'
      · exact le_trans (min_le_right y m') (ih ht x hx')

/-! ### Facts about strictly sorted lists of ids

The no-count strategies rely on the numeric id field being strictly
increasing in the (ascending-ordered) dataset.  These lemmas capture the
order-based reasoning used to assemble boundary pages and gap-filling pages
back into the full dataset. -/

theorem sorted_take_lt_drop {l : List Nat} (hl : l.Sorted (· < ·)) (k : Nat)
    {x y : Nat} (hx : x ∈ l.take k) (hy : y ∈ l.drop k) : x < y := by
  have := List.take_append_drop k l
  rw [← this] at hl
  exact (List.pairwise_append.mp hl).2.2 x hx y hy

/-- Splitting a sorted list by a downward-closed predicate: the elements
satisfying it form a prefix. -/
theorem sorted_filter_append {l : List Nat} (hl : l.Sorted (· < ·)) (p : Nat → Bool)
    (hp : ∀ x ∈ l, ∀ y ∈ l, x ≤ y → p y = true → p x = true) :
    l.filter p ++ l.filter (fun x => ! p x) = l := by
  induction l with
  | nil => simp
  | cons x t ih =>
    have hlt : t.Sorted (· < ·) := hl.of_cons
    have hxt : ∀ y ∈ t, x < y := fun y hy => List.rel_of_sorted_cons hl y hy
    cases hpx : p x with
    | true =>
      have : List.filter p (x :: t) = x :: t.filter p := by
        simp [List.filter_cons, hpx]
      rw [this]
      have : List.filter (fun y => ! p y) (x :: t) = t.filter (fun y => ! p y) := by
        simp [List.filter_cons, hpx]
      rw [this]
      have ihr := ih hlt (fun a ha b hb hab hpb =>
        hp a (List.mem_cons_of_mem _ ha) b (List.mem_cons_of_mem _ hb) hab hpb)
      simpa using ihr
    | false =>
      have htnone : t.filter p = [] := by
        rw [List.filter_eq_nil_iff]
        intro y hy
        intro hpy
        have : p x = true :=
          hp x (List.mem_cons_self x t) y (List.mem_cons_of_mem _ hy)
            (Nat.le_of_lt (hxt y hy)) hpy
        rw [hpx] at this
        exact Bool.noConfusion this
      have htall : t.filter (fun y => ! p y) = t := by
        rw [List.filter_eq_self]
        intro y hy
        have : ¬ p y = true := by
          intro hpy
          have := List.filter_eq_nil_iff.mp htnone y hy
          exact this hpy
        simp [Bool.not_eq_true] at this ⊢
        simp [this]
      have h1 : List.filter p (x :: t) = [] := by
        simp [List.filter_cons, hpx, htnone]
      have h2 : List.filter (fun y => ! p y) (x :: t) = x :: t := by
        simp [List.filter_cons, hpx, htall]
      rw [h1, h2]
      rfl

/-- A predicate failing on the first `k` elements and holding beyond them
filters a list to exactly its `drop k` part. -/
theorem filter_eq_drop_of {l : List α} (k : Nat) (p : α → Bool)
    (h1 : ∀ x ∈ l.take k, p x = false) (h2 : ∀ y ∈ l.drop k, p y = true) :
    l.filter p = l.drop k := by
  conv_lhs => rw [← List.take_append_drop k l]
  rw [List.filter_append]
  have e1 : (l.take k).filter p = [] := by
    rw [List.filter_eq_nil_iff]
    intro x hx
    rw [h1 x hx]
    simp
  have e2 : (l.drop k).filter p = l.drop k := List.filter_eq_self.mpr h2
  rw [e1, e2, List.nil_append]

/-- A strictly sorted list whose elements all lie in a half-open integer
interval of width `w` has at most `w` elements. -/
theorem length_le_of_nodup_mem_Ioc {l : List Nat} (hnd : l.Nodup) {a w : Nat}
    (h : ∀ x ∈ l, a < x ∧ x ≤ a + w) : l.length ≤ w := by
  classical
  have hsub : l.toFinset ⊆ Finset.Ioc a (a + w) := by
    intro x hx
    rw [Finset.mem_Ioc]
    exact h x (List.mem_toFinset.mp hx)
  have hcard := Finset.card_le_card hsub
  rw [List.toFinset_card_of_nodup hnd] at hcard
  simpa [Nat.card_Ioc] using hcard

/-! ### JSON-ish values (`type.py`)

`ApiTypes` of `type.py` is `bool | str | int | float | dict | list | datetime
| None`.  `Value` models the subset exercised by the claims (floats and
datetimes are omitted; both only pass through the query encoder via
`str`/`isoformat`, which the claims do not touch).  Python `dict`s become
insertion-ordered association lists. -/
inductive Value where
  | vnull
  | vbool (b : Bool)
  | vint (n : Int)
  | vstr (s : String)
  | vlist (xs : List Value)
  | vdict (xs : List (String × Value))
deriving Repr

/-- Embeds `Bitrix24._fix_list_result` (`api.py` lines 330-359): normalize a `list`
method result to a plain list of items.  Python `TypeError`s are modelled as
fatal internal `consistency` errors. -/
def fixListResult : Value → Except BError (List Value)
  | .vlist xs =>
    -- `if not result: return []` collapses with returning the list itself
    .ok xs
  | .vdict xs =>
    match xs with
    | [] => .ok []
    | [(_, v)] =>
      match v with
      | .vlist ys => .ok ys
      | _ => .error (.consistency "single dict item must be a list")
    | _ => .error (.consistency "dict result must have a single item")
  | _ => .error (.consistency "result must be a list or a dict")

/-! ### Error responses (`entity.py` lines 45-69, `settings.py`) -/

/-- An API error envelope (`ErrorResponse`).  The `error` code is lower-cased
by the `error_to_lower_str` field validator before classification. -/
structure ErrorResponse where
  error : String
  error_description : String
deriving DecidableEq, Repr

/-- The `error_to_lower_str` field validator of `ErrorResponse`. -/
def mkErrorResponse (code description : String) : ErrorResponse :=
  ⟨code.toLower, description⟩

/-- Embeds `ErrorResponse.raise_error` (`entity.py` lines 60-69): a code in the
configured retryable list raises `RetryApiResponseError`, anything else
`ApiResponseError`.  This single classification is used both by direct calls
(`_call`) and by per-item batch errors (`_batch`). -/
def raiseError (e : ErrorResponse) (retryErrors : List String) : BError :=
  if e.error ∈ retryErrors then .retryApi e.error else .fatalApi e.error

/-- Default settings (`settings.py` lines 23-39). -/
def defaultRetryErrors : List String := ["query_limit_exceeded", "operation_time_limit"]

def defaultRetryStatuses : List Nat := [423, 425, 429, 500, 502, 503, 507]

def defaultRetryTries : Nat := 5

def defaultRetryDelay : ℚ := 5

def defaultRetryBackoff : ℚ := 2

def defaultListSize : Nat := 50

def defaultBatchSize : Nat := 50

/-! ### Batch result processing (`api.py` lines 96-136) -/

/-- The synthetic positional keys `_0`, `_1`, ... used by `_batch`. -/
def batchKey (i : Nat) : String := "_" ++ toString i

/-- Embeds `BatchResult` (`entity.py` lines 100-107): per-key maps of the `batch`
method's composite result.  The `_php_dict` before-validator (empty wire lists
become empty maps) is absorbed by the association-list representation. -/
structure BatchResult where
  result : List (String × Value)
  result_time : List (String × Value)
  result_error : List (String × ErrorResponse)
  result_total : List (String × Nat)
  result_next : List (String × Nat)
deriving Repr

/-- A per-item response synthesized by `_batch` (`api.py` lines 127-134). -/
structure BResponse where
  result : Value
  time : Value
  total : Option Nat
  next : Option Nat
deriving Repr

/-- The per-item processing loop of `Bitrix24._batch` (`api.py` lines
110-136), iterating the synthetic keys in submission order: a key present in
`result_error` is classified and raised via `ErrorResponse.raise_error`;
otherwise absence from `result` or `result_time` raises a `ValueError`
(internal consistency error); otherwise a `Response` is synthesized. -/
def processBatchKeys (br : BatchResult) (retryErrors : List String) :
    List Nat → Except BError (List BResponse)
  | [] => .ok []
  | i :: rest =>
    let key := batchKey i
    match br.result_error.lookup key with
    | some e => .error (raiseError e retryErrors)
    | none =>
      match br.result.lookup key with
      | none => .error (.consistency "result must contain a result for the command")
      | some res =>
        match br.result_time.lookup key with
        | none => .error (.consistency "result_time must contain a result for the command")
        | some t =>
          (processBatchKeys br retryErrors rest).map
            (fun tail => ⟨res, t, br.result_total.lookup key, br.result_next.lookup key⟩ :: tail)

/-- The response-unpacking stage of `Bitrix24._batch` for an `n`-command batch. -/
def processBatch (n : Nat) (br : BatchResult) (retryErrors : List String) :
    Except BError (List BResponse) :=
  processBatchKeys br retryErrors (List.range n)

/-! ### Query-string encoding (`query.py`)

`urllib.parse.quote_plus` percent-encodes every byte outside the always-safe
set (ASCII letters, digits, `_`, `.`, `-`, `~`) and turns spaces into `+`.
The model is byte-faithful for ASCII payloads (multi-byte UTF-8 code points
are encoded from their low byte only, which no claim exercises). -/

def isAlwaysSafe (c : Char) : Bool :=
  c.isAlpha || c.isDigit || c = '_' || c = '.' || c = '-' || c = '~'

def hexDigitChar (n : Nat) : Char :=
  if n < 10 then Char.ofNat (48 + n) else Char.ofNat (55 + n)

def quotePlusChar (c : Char) : String :=
  if c = ' ' then "+"
  else if isAlwaysSafe c then String.singleton c
  else
    let n := c.toNat % 256
    String.mk ['%', hexDigitChar (n / 16), hexDigitChar (n % 16)]

def quotePlus (s : String) : String :=
  String.join (s.data.map quotePlusChar)

/-- Python's `str()` on the scalar values reaching the `else` branch of
`build_query` (lists, dicts and `None` are handled before `str` is applied). -/
def pyStr : Value → String
  | .vbool true => "True"
  | .vbool false => "False"
  | .vint n => toString n
  | .vstr s => s
  | _ => ""

/-- Python's `enumerate(value)` materialized as a dict, as in
`value = dict(enumerate(value))` (`query.py` line 18); keys are stringified by
the `path % key` formatting. -/
def pyEnumerate (xs : List Value) : List (String × Value) :=
  xs.enum.map (fun p => (toString p.1, p.2))

mutual

def qsizeV : Value → Nat
  | .vnull => 1
  | .vbool _ => 1
  | .vint _ => 1
  | .vstr _ => 1
  | .vlist xs => 1 + qsizeL xs
  | .vdict xs => 1 + qsizeD xs

def qsizeL : List Value → Nat
  | [] => 0
  | x :: t => 1 + qsizeV x + qsizeL t

def qsizeD : List (String × Value) → Nat
  | [] => 0
  | kv :: t => 1 + qsizeV kv.2 + qsizeD t

end

theorem qsizeD_enumFrom (xs : List Value) :
    ∀ i, qsizeD ((xs.enumFrom i).map (fun p => (toString p.1, p.2))) = qsizeL xs := by
  induction xs with
  | nil => intro i; simp [qsizeD, qsizeL]
  | cons x t ih =>
    intro i
    simp only [List.enumFrom, List.map_cons, qsizeD, qsizeL]
    rw [ih (i + 1)]

theorem qsizeD_pyEnumerate (xs : List Value) : qsizeD (pyEnumerate xs) = qsizeL xs := by
  unfold pyEnumerate List.enum
  exact qsizeD_enumFrom xs 0

/-- Embeds `build_query` (`query.py` lines 7-32): the list of non-empty subquery
fragments, in insertion order, for one parameter map.  `path` models the
accumulated `"%s"`-format string (`path % key` followed by appending
`"[%s]"`); `None` values are dropped, lists are enumerated into dicts, nested
dicts recurse with a bracketed path, and scalars are percent-encoded as
`key=value`. -/
def buildQuery (path : String → String) : List (String × Value) → List String
  | [] => []
  | (k, v) :: rest =>
    let sub : String :=
      match v with
      | .vnull => ""
      | .vlist xs =>
        String.intercalate "&"
          (buildQuery (fun s => path k ++ "[" ++ s ++ "]") (pyEnumerate xs))
      | .vdict xs =>
        String.intercalate "&"
          (buildQuery (fun s => path k ++ "[" ++ s ++ "]") xs)
      | _ => quotePlus (path k) ++ "=" ++ quotePlus (pyStr v)
    if sub = "" then buildQuery path rest else sub :: buildQuery path rest
termination_by ps => qsizeD ps
decreasing_by
  all_goals simp only [qsizeD, qsizeD_pyEnumerate]
  all_goals first
    | (have h1 : qsizeV (Value.vlist xs) = 1 + qsizeL xs := rfl
       omega)
    | (have h1 : qsizeV (Value.vdict xs) = 1 + qsizeD xs := rfl
       omega)
    | omega

/-- The full query string for one parameter map (`build_query(parameters)`). -/
def buildQueryStr (params : List (String × Value)) : String :=
  String.intercalate "&" (buildQuery (fun s => s) params)

/-! ### Requests (`entity.py` lines 11-27) -/

/-- An API method with its parameter map (`Request`). -/
structure Request where
  method : String
  parameters : List (String × Value)

/-- Embeds `Request.query` (`entity.py` lines 17-27): the query form used for batch
sub-commands — the bare method when there are no parameters, otherwise
`method?build_query(parameters)`. -/
def Request.query (r : Request) : String :=
  match r.parameters with
  | [] => r.method
  | _ => r.method ++ "?" ++ buildQueryStr r.parameters

/-- The composite batch request built by `Bitrix24._batch` (`api.py` lines
96-105): synthetic keys `_0.._{n-1}` assigned in submission order, `halt:
true`, and each command in query form. -/
def buildBatchRequest (reqs : List Request) : Request :=
  ⟨"batch",
    [("halt", .vbool true),
     ("cmd", .vdict (reqs.enum.map (fun p => (batchKey p.1, Value.vstr p.2.query))))]⟩

/-! ### Sequential and batched tail pagination (`api.py` lines 138-204)

Both strategies address pages by their `start` offset; the page server is
modelled as a pure oracle from `start` to a page response.  Page results are
list-shaped for these endpoints, so `_fix_list_result` passes them through
unchanged (see `fixListResult_vlist`); the oracle carries the normalized item
list.  Errors abort the run: a generator that has already yielded items and
then raises is modelled by the error alone. -/

/-- A `list`-method page response: normalized items, and the `total`/`next`
paging metadata (absent fields are `none`). -/
structure PageResponse (α : Type) where
  items : List α
  total : Option Nat
  next : Option Nat

/-- The `next` validation of `list_sequential`/`list_batched` (`api.py` lines
156, 165, 191): Python `if response.next and response.next != expected` — a
present, non-zero `next` differing from the expected offset is an
inconsistency. -/
def badNext (next : Option Nat) (expected : Nat) : Bool :=
  match next with
  | none => false
  | some v => v ≠ 0 && v ≠ expected

/-- The tail loop of `Bitrix24.list_sequential` (`api.py` lines 160-169):
one direct call per start offset, each validated against
`next == start + list_size` before its items are yielded. -/
def listSequentialTails (call : Nat → PageResponse α) (ls : Nat) :
    List Nat → Except BError (List α)
  | [] => .ok []
  | s :: rest =>
    let r := call s
    if badNext r.next (s + ls) then
      .error (.consistency "expecting next list chunk to start at start plus list size")
    else
      (listSequentialTails call ls rest).map (fun tail => r.items ++ tail)

/-- Embeds `Bitrix24.list_sequential` (`api.py` lines 138-169).  Returns the list of
issued `start` offsets (head first) alongside the yielded items. -/
def listSequential (call : Nat → PageResponse α) (ls : Nat) :
    Except BError (List Nat × List α) :=
  let head := call 0
  if badNext head.next ls then
    .error (.consistency "expecting list chunk size to be list size")
  else
    let total := head.total.getD 0   -- `total = head_response.total or 0`
    let starts := pyRange ls total ls
    (listSequentialTails call ls starts).map (fun tail => (0 :: starts, head.items ++ tail))

/-- Embeds `Bitrix24.list_batched` (`api.py` lines 171-204): same head fetch and
validation, but the tail pages are fetched through the batch executor and
their `next` fields are not validated. -/
def listBatched (call : Nat → PageResponse α) (ls bs : Nat) :
    Except BError (List Nat × List α) :=
  let head := call 0
  if badNext head.next ls then
    .error (.consistency "expecting chunk size to be list size")
  else
    let total := head.total.getD 0
    let starts := pyRange ls total ls
    let tailResponses := batchCalls call bs starts
    .ok (0 :: starts, head.items ++ (tailResponses.map (fun r => r.items)).flatten)

/-- The consistent page-wise server for a dataset `ds`: page at `start` is
`ds[start : start + ls]`, `total` is the dataset size, `next` is
`start + ls` when more pages remain and absent otherwise (mirroring the mock
servers of `api_test.py::test_list_sequential`/`test_list_batched`). -/
def seqServe (ds : List α) (ls : Nat) (start : Nat) : PageResponse α :=
  { items := (ds.drop start).take ls
    total := some ds.length
    next := if start + ls < ds.length then some (start + ls) else none }

theorem seqServe_badNext (ds : List α) {ls : Nat} (hls : 1 ≤ ls) (start : Nat) :
    badNext (seqServe ds ls start).next (start + ls) = false := by
  unfold seqServe badNext
  by_cases h : start + ls < ds.length
  · simp [h]
  · simp [h]

/-- Joining the page slices over the tail offsets reassembles the dropped
part of the dataset. -/
theorem slices_flatten (ds : List α) (ls : Nat) (hls : 1 ≤ ls) :
    ∀ a, ((pyRange a ds.length ls).map (fun s => (ds.drop s).take ls)).flatten = ds.drop a := by
  intro a
  by_cases h : ds.length ≤ a
  · rw [pyRange_eq_nil_of_le h]
    simp [List.drop_eq_nil_of_le h]
  · push_neg at h
    rw [pyRange_eq_cons h (by omega)]
    simp only [List.map_cons, List.flatten_cons]
    rw [slices_flatten ds ls hls (a + ls)]
    rw [← List.drop_drop]
    exact List.take_append_drop ls (ds.drop a)
termination_by a => ds.length - a
decreasing_by
  omega

theorem listSequentialTails_consistent (ds : List α) {ls : Nat} (hls : 1 ≤ ls) :
    ∀ starts, (∀ s ∈ starts, badNext (seqServe ds ls s).next (s + ls) = false) →
      listSequentialTails (seqServe ds ls) ls starts =
        .ok ((starts.map (fun s => (ds.drop s).take ls)).flatten) := by
  intro starts
  induction starts with
  | nil => intro _; rfl
  | cons s rest ih =>
    intro hok
    unfold listSequentialTails
    simp only
    rw [hok s (List.mem_cons_self s rest)]
    simp only [Bool.false_eq_true, if_neg, not_false_iff]
    rw [ih (fun x hx => hok x (List.mem_cons_of_mem _ hx))]
    rfl

/-! ### Batched-no-count cursor-range pagination (`api.py` lines 206-267)

Items of these list endpoints carry a numeric id (`int(item[id_key])`); an
item is modelled by its id (a natural number).  The caller's own filter is
honoured by the server, so the dataset is already "all items matching the
caller's request", kept in ascending id order.  The strategy only ever varies
the reserved range keys, the order direction and `start = -1`, which is what
the page oracle below receives. -/

/-- The variable part of a page request issued by the no-count strategies:
an optional exclusive lower bound (filter key `>{id_key}`), an optional
exclusive upper bound (`<{id_key}`) and the order direction. -/
structure NCQuery where
  lowerE : Option Nat
  upperE : Option Nat
  descending : Bool
deriving DecidableEq, Repr

/-- The caller-visible part of a `ListRequest` that the no-count strategies
inspect: the `select` list, the keys of the caller's `filter`, and whether an
`order` was supplied (`entity.py` lines 30-42; a non-empty `order` dict is
rejected regardless of content). -/
structure NCRequest where
  select : List String
  filterKeys : List String
  orderKeys : List String
deriving DecidableEq, Repr

/-- Python truthiness of an `int | None` value: `None` and `0` are falsy.
The gap-filling guard `if max_head_id and min_tail_id and ...` (`api.py` line
259) relies on this. -/
def truthy : Option Nat → Bool
  | none => false
  | some v => v ≠ 0

/-- The gap-filling requests generated by `_body_requests` (`api.py` lines
252-257): for each `start` in `range(max_head_id, min_tail_id, list_size)`,
a page filtered to ids in the exclusive range
`(start, min(start + list_size + 1, min_tail_id))`. -/
def bodyReqs (maxHead minTail ls : Nat) : List (Nat × Nat) :=
  (pyRange maxHead minTail ls).map (fun start => (start, min (start + ls + 1) minTail))

/-- The body requests actually issued by `list_batched_no_count`: the
generator is only consumed under the truthiness guard of line 259. -/
def issuedBodyReqs (maxHead minTail : Option Nat) (ls : Nat) : List (Nat × Nat) :=
  if truthy maxHead && truthy minTail && decide (maxHead.getD 0 < minTail.getD 0) then
    bodyReqs (maxHead.getD 0) (minTail.getD 0) ls
  else []

/-- The final tail emission of `list_batched_no_count` (`api.py` lines
265-267): walk the tail page in reverse (ascending) order, yielding items with
id strictly above `max_head_id`.  When the tail page is non-empty but the head
page was empty, Python's `int > None` comparison raises a `TypeError`
(unreachable for a consistent server). -/
def tailEmit (maxHead : Option Nat) (tailResult : List Nat) : Except BError (List Nat) :=
  match tailResult with
  | [] => .ok []
  | _ =>
    match maxHead with
    | none => .error (.consistency "comparison of int and NoneType")
    | some m => .ok (tailResult.reverse.filter (fun i => decide (m < i)))

/-- Embeds `Bitrix24.list_batched_no_count` (`api.py` lines 206-267).

The select-handling of lines 221-223 is embedded faithfully to the source
slip: when `select` names neither `"*"` nor `id_key`, line 223 evaluates
`request.select` — an attribute that `ListRequest` does not have (its fields
are `method` and `parameters`) — so pydantic raises `AttributeError` instead
of appending `id_key` to `parameters.select`. -/
def listBatchedNoCount (req : NCRequest) (idKey : String)
    (serve : NCQuery → List Nat) (ls bs : Nat) : Except BError (List Nat) :=
  if "*" ∉ req.select ∧ idKey ∉ req.select then
    .error (.attrError "ListRequest object has no attribute select")
  else if (">" ++ idKey) ∈ req.filterKeys ∨ ("<" ++ idKey) ∈ req.filterKeys then
    .error (.consistency "filter parameters for the id key are reserved")
  else if ¬ req.orderKeys.isEmpty then
    .error (.consistency "ordering parameters are reserved")
  else
    -- head asc / tail desc fetched as one two-request batch (line 245)
    let headResult := serve ⟨none, none, false⟩
    let tailResult := serve ⟨none, none, true⟩
    let maxHead := pyMax? headResult
    let minTail := pyMin? tailResult
    let bodyPages :=
      batchCalls (fun q => serve q) bs
        ((issuedBodyReqs maxHead minTail ls).map
          (fun p => (⟨some p.1, some p.2, false⟩ : NCQuery)))
    match tailEmit maxHead tailResult with
    | .error e => .error e
    | .ok tailItems => .ok (headResult ++ bodyPages.flatten ++ tailItems)

/-- The consistent no-count page server for an ascending dataset `ids`:
filter by the exclusive range bounds, order ascending or descending, return
the first `ls` matches (mirroring `api_test.py::test_list_batched_no_count`'s
mock). -/
def ncServe (ids : List Nat) (ls : Nat) (q : NCQuery) : List Nat :=
  let hits := ids.filter (fun i =>
    (match q.lowerE with | none => true | some a => decide (a < i)) &&
    (match q.upperE with | none => true | some b => decide (i < b)))
  (if q.descending then hits.reverse else hits).take ls

/-- How many gap-filling pages are required: the number of `pageSize`-sized pages
needed to cover the ids strictly between `maxHead` and `minTail`.  This
definition follows the specification's words (spec §4.5 step 7 and §8), for
comparison against the `bodyReqs` the code generates. -/
def specRequiredPages (maxHead minTail ls : Nat) : Nat :=
  ((minTail - maxHead - 1) + ls - 1) / ls

instance exceptDecEq {ε α : Type} [DecidableEq ε] [DecidableEq α] :
    DecidableEq (Except ε α)
  | .error e, .error f =>
    if h : e = f then .isTrue (by rw [h]) else .isFalse (fun hc => h (by injection hc))
  | .error _, .ok _ => .isFalse (fun hc => Except.noConfusion hc)
  | .ok _, .error _ => .isFalse (fun hc => Except.noConfusion hc)
  | .ok a, .ok b =>
    if h : a = b then .isTrue (by rw [h]) else .isFalse (fun hc => h (by injection hc))

theorem ncServe_head (ids : List Nat) (ls : Nat) :
    ncServe ids ls ⟨none, none, false⟩ = ids.take ls := by
  show (ids.filter (fun i => true)).take ls = ids.take ls
  rw [List.filter_true]

theorem ncServe_tail (ids : List Nat) (ls : Nat) :
    ncServe ids ls ⟨none, none, true⟩ = ids.reverse.take ls := by
  show ((ids.filter (fun i => true)).reverse).take ls = ids.reverse.take ls
  rw [List.filter_true]

/-- A gap-filling page of the consistent server returns every dataset id in
its range: the range spans at most `ls` integers, so the `take ls` is the
identity. -/
theorem ncServe_body_page (ids : List Nat) (hs : ids.Sorted (· < ·)) {ls : Nat}
    (a b : Nat) :
    ncServe ids ls ⟨some a, some (min (a + ls + 1) b), false⟩ =
      ids.filter (fun i => decide (a < i) && decide (i < min (a + ls + 1) b)) := by
  unfold ncServe
  simp only [Bool.if_false_left, if_neg, Bool.false_eq_true, not_false_iff]
  apply List.take_of_length_le
  apply length_le_of_nodup_mem_Ioc (hs.nodup.filter _) (a := a) (w := ls)
  intro x hx
  have := List.of_mem_filter hx
  simp only [Bool.and_eq_true, decide_eq_true_eq] at this
  omega

/-- Joining the gap-filling pages over `bodyReqs a b ls` yields exactly the
dataset ids strictly between `a` and `b`, in order. -/
theorem bodyReqs_flatten (ids : List Nat) (hs : ids.Sorted (· < ·)) {ls : Nat}
    (hls : 1 ≤ ls) :
    ∀ a b, ((bodyReqs a b ls).map
        (fun p => ncServe ids ls ⟨some p.1, some p.2, false⟩)).flatten =
      ids.filter (fun i => decide (a < i) && decide (i < b)) := by
  intro a b
  by_cases hab : b ≤ a
  · unfold bodyReqs
    rw [pyRange_eq_nil_of_le hab]
    simp only [List.map_nil, List.flatten_nil]
    symm
    rw [List.filter_eq_nil_iff]
    intro x _
    simp only [Bool.and_eq_true, decide_eq_true_eq]
    omega
  · push_neg at hab
    unfold bodyReqs
    rw [pyRange_eq_cons hab (by omega)]
    simp only [List.map_cons, List.flatten_cons]
    have hrest := bodyReqs_flatten ids hs hls (a + ls) b
    unfold bodyReqs at hrest
    rw [hrest, ncServe_body_page ids hs]
    by_cases hend : b ≤ a + ls
    · -- final page: its range is clipped to `b`, the remaining range is empty
      have hmin : min (a + ls + 1) b = b := by omega
      rw [hmin]
      have hnil : ids.filter (fun i => decide (a + ls < i) && decide (i < b)) = [] := by
        rw [List.filter_eq_nil_iff]
        intro x _
        simp only [Bool.and_eq_true, decide_eq_true_eq]
        omega
      rw [hnil, List.append_nil]
    · -- middle page: split the target filter at `a + ls`
      push_neg at hend
      have hmin : min (a + ls + 1) b = a + ls + 1 := by omega
      rw [hmin]
      have hsplit := sorted_filter_append (l := ids.filter (fun i => decide (a < i) && decide (i < b)))
        (List.Pairwise.filter _ hs) (fun i => decide (i ≤ a + ls))
        (by
          intro x _ y _ hxy hy
          simp only [decide_eq_true_eq] at hy ⊢
          omega)
      rw [List.filter_filter, List.filter_filter] at hsplit
      have e1 : ids.filter (fun i => decide (i ≤ a + ls) && (decide (a < i) && decide (i < b))) =
          ids.filter (fun i => decide (a < i) && decide (i < a + ls + 1)) := by
        apply List.filter_congr
        intro x _
        rw [Bool.eq_iff_iff]
        simp only [Bool.and_eq_true, Bool.not_eq_true', decide_eq_true_eq,
          decide_eq_false_iff_not]
        omega
      have e2 : ids.filter (fun i => (! decide (i ≤ a + ls)) && (decide (a < i) && decide (i < b))) =
          ids.filter (fun i => decide (a + ls < i) && decide (i < b)) := by
        apply List.filter_congr
        intro x _
        rw [Bool.eq_iff_iff]
        simp only [Bool.and_eq_true, Bool.not_eq_true', decide_eq_true_eq,
          decide_eq_false_iff_not]
        omega
      rw [e1, e2] at hsplit
      exact hsplit
termination_by a b => b - a
decreasing_by
  omega

theorem tailEmit_some {m : Nat} {t : List Nat} (ht : t ≠ []) :
    tailEmit (some m) t = .ok (t.reverse.filter (fun i => decide (m < i))) := by
  cases t with
  | nil => exact absurd rfl ht
  | cons a r => rfl

theorem take_ne_nil_of {l : List Nat} {k : Nat} (hk : 1 ≤ k) (hl : l ≠ []) :
    l.take k ≠ [] := by
  intro h
  have hlen := congrArg List.length h
  rw [List.length_take] at hlen
  simp only [List.length_nil] at hlen
  have : l.length = 0 := by omega
  rw [List.length_eq_zero] at this
  exact hl this

/-- Full-dataset correctness of `list_batched_no_count` against the consistent
server, for positive strictly ascending ids and a request that passes the
select/filter/order validation. -/
theorem listBatchedNoCount_consistent (ids : List Nat) (hs : ids.Sorted (· < ·))
    (hpos : ∀ i ∈ ids, 0 < i) {ls bs : Nat} (hls : 1 ≤ ls) (hbs : 1 ≤ bs)
    (req : NCRequest) (idKey : String)
    (hsel : "*" ∈ req.select ∨ idKey ∈ req.select)
    (hf1 : (">" ++ idKey) ∉ req.filterKeys) (hf2 : ("<" ++ idKey) ∉ req.filterKeys)
    (ho : req.orderKeys = []) :
    listBatchedNoCount req idKey (ncServe ids ls) ls bs = .ok ids := by
  unfold listBatchedNoCount
  rw [if_neg (by tauto)]
  rw [if_neg (by tauto)]
  rw [if_neg (by simp [ho])]
  simp only [ncServe_head, ncServe_tail]
  cases hids : ids with
  | nil =>
    simp [pyMax?, pyMin?, tailEmit, issuedBodyReqs, truthy, batchCalls, chunkList_nil]
  | cons i0 irest =>
  rw [← hids]
  have hne : ids ≠ [] := by rw [hids]; exact List.cons_ne_nil _ _
  have hTne : ids.reverse.take ls ≠ [] := by
    apply take_ne_nil_of hls
    intro h
    rw [List.reverse_eq_nil_iff] at h
    exact hne h
  have hHne : ids.take ls ≠ [] := take_ne_nil_of hls hne
  obtain ⟨M, hM⟩ : ∃ M, pyMax? (ids.take ls) = some M := by
    cases h : pyMax? (ids.take ls) with
    | none => exact absurd (pyMax?_eq_none_iff.mp h) hHne
    | some m => exact ⟨m, rfl⟩
  obtain ⟨m0, hm0⟩ : ∃ m0, pyMin? (ids.reverse.take ls) = some m0 := by
    cases h : pyMin? (ids.reverse.take ls) with
    | none => exact absurd (pyMin?_eq_none_iff.mp h) hTne
    | some m => exact ⟨m, rfl⟩
  rw [hM, hm0, tailEmit_some hTne]
  -- the reversed tail page is the last `ls` elements of the dataset
  have hD : (ids.reverse.take ls).reverse = ids.drop (ids.length - ls) := by
    have h1 := List.rtake_eq_reverse_take_reverse (l := ids) (n := ls)
    rw [List.rtake] at h1
    exact h1.symm
  rw [hD]
  have hMmem : M ∈ ids.take ls := pyMax?_mem hM
  have hMids : M ∈ ids := List.take_subset _ _ hMmem
  have hMub : ∀ x ∈ ids.take ls, x ≤ M := le_pyMax? hM
  have hm0T : m0 ∈ ids.reverse.take ls := pyMin?_mem hm0
  have hm0D : m0 ∈ ids.drop (ids.length - ls) := by
    rw [← hD]
    exact List.mem_reverse.mpr hm0T
  have hm0lbD : ∀ x ∈ ids.drop (ids.length - ls), m0 ≤ x := by
    intro x hx
    apply pyMin?_le hm0
    rw [← List.mem_reverse, hD]
    exact hx
  have hMpos : 0 < M := hpos M hMids
  have hm0pos : 0 < m0 := hpos m0 (List.drop_subset _ _ hm0D)
  by_cases hMm0 : M < m0
  · -- a numeric gap remains: body requests cover it exactly
    have hlen : ls < ids.length := by
      by_contra hcon
      push_neg at hcon
      have : ids.take ls = ids := List.take_of_length_le hcon
      have : m0 ≤ M := hMub m0 (by rw [this]; exact List.drop_subset _ _ hm0D)
      omega
    have hissued : issuedBodyReqs (some M) (some m0) ls = bodyReqs M m0 ls := by
      unfold issuedBodyReqs truthy
      rw [if_pos]
      · rfl
      · simp only [Option.getD_some, Bool.and_eq_true, decide_eq_true_eq]
        exact ⟨⟨by omega, by omega⟩, by omega⟩
    rw [hissued]
    rw [batchCalls_eq_map hbs, List.map_map]
    have hbody := bodyReqs_flatten ids hs hls M m0
    have hcomp : ((fun q => ncServe ids ls q) ∘ fun p => (⟨some p.1, some p.2, false⟩ : NCQuery)) =
        (fun p : Nat × Nat => ncServe ids ls ⟨some p.1, some p.2, false⟩) := rfl
    rw [hcomp, hbody]
    -- the filtered tail is the whole last page
    have hDfull : (ids.drop (ids.length - ls)).filter (fun i => decide (M < i)) =
        ids.drop (ids.length - ls) := by
      rw [List.filter_eq_self]
      intro y hy
      simp only [decide_eq_true_eq]
      have := hm0lbD y hy
      omega
    rw [hDfull]
    -- the gap filter equals `drop ls` minus the tail page
    have hdrop : ids.filter (fun i => decide (M < i)) = ids.drop ls := by
      apply filter_eq_drop_of
      · intro x hx
        simp only [decide_eq_false_iff_not]
        have := hMub x hx
        omega
      · intro y hy
        simp only [decide_eq_true_eq]
        exact sorted_take_lt_drop hs ls hMmem hy
    have hsplit := sorted_filter_append (l := ids.filter (fun i => decide (M < i)))
      (List.Pairwise.filter _ hs) (fun i => decide (i < m0))
      (by
        intro x _ y _ hxy hy
        simp only [decide_eq_true_eq] at hy ⊢
        omega)
    rw [List.filter_filter, List.filter_filter] at hsplit
    have e1 : ids.filter (fun i => decide (i < m0) && decide (M < i)) =
        ids.filter (fun i => decide (M < i) && decide (i < m0)) := by
      apply List.filter_congr
      intro x _
      rw [Bool.eq_iff_iff]
      simp only [Bool.and_eq_true, decide_eq_true_eq]
      omega
    have e2 : ids.filter (fun i => (! decide (i < m0)) && decide (M < i)) =
        ids.drop (ids.length - ls) := by
      apply filter_eq_drop_of
      · intro x hx
        have hxm0 : x < m0 := sorted_take_lt_drop hs (ids.length - ls) hx hm0D
        simp only [Bool.and_eq_false_iff, Bool.not_eq_false', decide_eq_true_eq]
        left
        exact hxm0
      · intro y hy
        have h1 := hm0lbD y hy
        simp only [Bool.and_eq_true, Bool.not_eq_true', decide_eq_false_iff_not,
          decide_eq_true_eq]
        omega
    rw [e1, e2, hdrop] at hsplit
    -- reassemble: take ls ++ gap ++ tail = take ls ++ drop ls = ids
    have hgoal : ids.take ls ++
        ids.filter (fun i => decide (M < i) && decide (i < m0)) ++
        ids.drop (ids.length - ls) = ids := by
      rw [List.append_assoc, hsplit, List.take_append_drop]
    exact congrArg Except.ok hgoal
  · -- no gap: boundary pages already cover the dataset
    have hissued : issuedBodyReqs (some M) (some m0) ls = [] := by
      unfold issuedBodyReqs truthy
      rw [if_neg]
      simp only [Bool.and_eq_true, decide_eq_true_eq]
      intro hcon
      exact hMm0 hcon.2
    rw [hissued]
    simp only [List.map_nil]
    have hbnil : batchCalls (fun q => ncServe ids ls q) bs ([] : List NCQuery) = [] := by
      unfold batchCalls
      rw [chunkList_nil]
      rfl
    rw [hbnil]
    simp only [List.flatten_nil, List.append_nil]
    by_cases hln : ids.length ≤ ls
    · -- the head page is the whole dataset; the filtered tail is empty
      have htake : ids.take ls = ids := List.take_of_length_le hln
      have hdz : ids.length - ls = 0 := by omega
      rw [hdz, List.drop_zero]
      have hfe : ids.filter (fun i => decide (M < i)) = [] := by
        rw [List.filter_eq_nil_iff]
        intro x hx
        simp only [decide_eq_true_eq]
        have := hMub x (by rw [htake]; exact hx)
        omega
      rw [hfe, List.append_nil, htake]
    · push_neg at hln
      -- the filtered tail page is exactly `drop ls`
      have hdrop : ids.filter (fun i => decide (M < i)) = ids.drop ls := by
        apply filter_eq_drop_of
        · intro x hx
          simp only [decide_eq_false_iff_not]
          have := hMub x hx
          omega
        · intro y hy
          simp only [decide_eq_true_eq]
          exact sorted_take_lt_drop hs ls hMmem hy
      have hDfilter : (ids.drop (ids.length - ls)).filter (fun i => decide (M < i)) =
          ids.drop ls := by
        have hreassemble : ids.filter (fun i => decide (M < i)) =
            (ids.take (ids.length - ls)).filter (fun i => decide (M < i)) ++
            (ids.drop (ids.length - ls)).filter (fun i => decide (M < i)) := by
          conv_lhs => rw [← List.take_append_drop (ids.length - ls) ids]
          rw [List.filter_append]
        have hpre : (ids.take (ids.length - ls)).filter (fun i => decide (M < i)) = [] := by
          rw [List.filter_eq_nil_iff]
          intro x hx
          simp only [decide_eq_true_eq]
          have hxm0 : x < m0 := sorted_take_lt_drop hs (ids.length - ls) hx hm0D
          omega
        rw [hpre, List.nil_append] at hreassemble
        rw [← hreassemble, hdrop]
      rw [hDfilter, List.take_append_drop]

/-! ### Reference-batched-no-count pagination (`api.py` lines 269-328)

One id-ascending cursor walk per reference value, all advanced through shared
batches.  An update (e.g. `{"=ENTITY_ID": 7}`) is identified by its reference
value `r : Nat`; the per-reference dataset is `data r`, a strictly ascending
id list.  Items are `(reference, id)` pairs.  The work loop consumes the
update stream and the queue of continuation requests; its state is the list of
pending walks.  The loop is written with explicit fuel; `refMeasure` bounds
the number of rounds, and the main theorem supplies sufficient fuel. -/

/-- A walk request: a reference value plus the current `>{id_key}` exclusive
cursor (absent on the initial request for a reference). -/
structure Walk where
  ref : Nat
  cursor : Option Nat
deriving DecidableEq, Repr

/-- The ids of `data w.ref` still beyond the cursor. -/
def remaining (data : Nat → List Nat) (w : Walk) : List Nat :=
  (data w.ref).filter (fun i =>
    match w.cursor with
    | none => true
    | some m => decide (m < i))

/-- The consistent server for one walk request: the first `ls` remaining ids,
ascending (mirroring `api_test.py::test_reference_batched_no_count`'s mock). -/
def serveRef (data : Nat → List Nat) (ls : Nat) (w : Walk) : List Nat :=
  (remaining data w).take ls

/-- The continuation step (`api.py` lines 322-326): a full page (`len ==
list_size`) enqueues one follow-up request for the same reference with the
cursor at the page's maximum id; a short page enqueues nothing. -/
def refStep (ls : Nat) (w : Walk) (items : List Nat) : List Walk :=
  if items.length = ls then [⟨w.ref, pyMax? items⟩] else []

/-- The `while body_requests := ...` loop of `reference_batched_no_count`
(`api.py` lines 314-328): refill the in-flight set from pending continuations
plus the update stream, fetch one batch, stream each page's items (tagged with
their walk's reference), and queue continuations for full pages. -/
def refLoop (data : Nat → List Nat) (ls bs : Nat) :
    Nat → List Walk → List Nat → List (Nat × Nat)
  | 0, _, _ => []
  | fuel + 1, pending, stream =>
    let pulled := stream.take (bs - pending.length)
    let body := pending ++ pulled.map (fun r => ⟨r, none⟩)
    if body.isEmpty then []
    else
      let results := batchCalls (serveRef data ls) bs body
      let pairs := body.zip results
      let yields := pairs.flatMap (fun p => p.2.map (fun i => (p.1.ref, i)))
      let conts := pairs.flatMap (fun p => refStep ls p.1 p.2)
      yields ++ refLoop data ls bs fuel conts (stream.drop (bs - pending.length))

/-- Embeds `Bitrix24.reference_batched_no_count` (`api.py` lines 269-328): the same
select handling (and `AttributeError` slip) and reserved-key validation as
`list_batched_no_count`, then the fan-out walk.  Updates are identified by
their reference values; the per-update reserved-key check of `_tail_requests`
is vacuous in this representation (an update is just its reference value). -/
def refBatchedNoCount (req : NCRequest) (idKey : String) (data : Nat → List Nat)
    (updates : List Nat) (ls bs fuel : Nat) : Except BError (List (Nat × Nat)) :=
  if "*" ∉ req.select ∧ idKey ∉ req.select then
    .error (.attrError "ListRequest object has no attribute select")
  else if (">" ++ idKey) ∈ req.filterKeys then
    .error (.consistency "filter parameter for the id key is reserved")
  else if ¬ req.orderKeys.isEmpty then
    .error (.consistency "ordering parameters are reserved")
  else
    .ok (refLoop data ls bs fuel [] updates)

/-- Fuel bound: one round is charged per page of each walk plus one per
reference. -/
def refMeasure (data : Nat → List Nat) (pending : List Walk) (stream : List Nat) : Nat :=
  (pending.map (fun w => (remaining data w).length + 1)).sum +
    (stream.map (fun r => (data r).length + 1)).sum

/-- All items a set of pending walks and a remaining update stream will still
produce, as (reference, id) pairs. -/
def refItems (data : Nat → List Nat) (pending : List Walk) (stream : List Nat) :
    List (Nat × Nat) :=
  pending.flatMap (fun w => (remaining data w).map (fun i => (w.ref, i))) ++
    stream.flatMap (fun r => (data r).map (fun i => (r, i)))

theorem remaining_none (data : Nat → List Nat) (r : Nat) :
    remaining data ⟨r, none⟩ = data r := by
  show (data r).filter (fun i => true) = data r
  rw [List.filter_true]

theorem remaining_sorted {data : Nat → List Nat} (hsorted : ∀ r, (data r).Sorted (· < ·))
    (w : Walk) : (remaining data w).Sorted (· < ·) :=
  List.Pairwise.filter _ (hsorted w.ref)

/-- Advancing the cursor to a full page's maximum id drops exactly that page
from the walk's remaining ids. -/
theorem remaining_after_full {data : Nat → List Nat}
    (hsorted : ∀ r, (data r).Sorted (· < ·)) {ls : Nat} (hls : 1 ≤ ls) (w : Walk)
    {M : Nat} (hM : pyMax? ((remaining data w).take ls) = some M)
    (hfull : ((remaining data w).take ls).length = ls) :
    remaining data ⟨w.ref, some M⟩ = (remaining data w).drop ls := by
  have hrem_sorted := remaining_sorted hsorted w
  have hMmem : M ∈ (remaining data w).take ls := pyMax?_mem hM
  have hMub := le_pyMax? hM
  have hMrem : M ∈ remaining data w := List.take_subset _ _ hMmem
  -- the cursor predicate of `w` holds for everything past `M`
  have hstep1 : remaining data ⟨w.ref, some M⟩ =
      (remaining data w).filter (fun i => decide (M < i)) := by
    unfold remaining
    rw [List.filter_filter]
    apply List.filter_congr
    intro x _
    rw [Bool.eq_iff_iff]
    simp only [Bool.and_eq_true, decide_eq_true_eq]
    cases hc : w.cursor with
    | none => simp
    | some c =>
      have hcM : c < M := by
        have := List.of_mem_filter (p := fun i =>
          match w.cursor with
          | none => true
          | some m => decide (m < i)) hMrem
        rw [hc] at this
        simpa using this
      simp only [decide_eq_true_eq]
      omega
  rw [hstep1]
  apply filter_eq_drop_of
  · intro x hx
    simp only [decide_eq_false_iff_not]
    have := hMub x hx
    omega
  · intro y hy
    simp only [decide_eq_true_eq]
    exact sorted_take_lt_drop hrem_sorted ls hMmem hy

/-- Per-walk bookkeeping: the page's items followed by everything the
continuation (if any) will produce is exactly the walk's remaining items. -/
theorem walk_step_items {data : Nat → List Nat}
    (hsorted : ∀ r, (data r).Sorted (· < ·)) {ls : Nat} (hls : 1 ≤ ls) (w : Walk) :
    (serveRef data ls w).map (fun i => (w.ref, i)) ++
      (refStep ls w (serveRef data ls w)).flatMap
        (fun w' => (remaining data w').map (fun i => (w'.ref, i))) =
    (remaining data w).map (fun i => (w.ref, i)) := by
  unfold serveRef refStep
  by_cases hfull : ((remaining data w).take ls).length = ls
  · rw [if_pos hfull]
    have hne : (remaining data w).take ls ≠ [] := by
      intro h
      rw [h] at hfull
      simp at hfull
      omega
    obtain ⟨M, hM⟩ : ∃ M, pyMax? ((remaining data w).take ls) = some M := by
      cases h : pyMax? ((remaining data w).take ls) with
      | none => exact absurd (pyMax?_eq_none_iff.mp h) hne
      | some m => exact ⟨m, rfl⟩
    rw [hM]
    simp only [List.flatMap_cons, List.flatMap_nil, List.append_nil]
    rw [remaining_after_full hsorted hls w hM hfull]
    rw [← List.map_append, List.take_append_drop]
  · rw [if_neg hfull]
    simp only [List.flatMap_nil, List.append_nil]
    have : (remaining data w).length < ls := by
      rw [List.length_take] at hfull
      omega
    rw [List.take_of_length_le (by omega)]

theorem flatMap_congr_mem {l : List α} {f g : α → List β}
    (h : ∀ x ∈ l, f x = g x) : l.flatMap f = l.flatMap g := by
  induction l with
  | nil => rfl
  | cons x t ih =>
    simp only [List.flatMap_cons]
    rw [h x (List.mem_cons_self x t), ih (fun y hy => h y (List.mem_cons_of_mem _ hy))]

theorem flatMap_append_perm (l : List α) (f g : α → List β) :
    (l.flatMap (fun x => f x ++ g x)).Perm (l.flatMap f ++ l.flatMap g) := by
  induction l with
  | nil => rfl
  | cons x t ih =>
    simp only [List.flatMap_cons]
    have h1 : List.Perm ((f x ++ g x) ++ t.flatMap (fun y => f y ++ g y))
        ((f x ++ g x) ++ (t.flatMap f ++ t.flatMap g)) := ih.append_left _
    have hinner : List.Perm (g x ++ (t.flatMap f ++ t.flatMap g))
        (t.flatMap f ++ (g x ++ t.flatMap g)) := by
      rw [← List.append_assoc, ← List.append_assoc]
      exact List.perm_append_comm.append_right _
    have h2 : List.Perm ((f x ++ g x) ++ (t.flatMap f ++ t.flatMap g))
        ((f x ++ t.flatMap f) ++ (g x ++ t.flatMap g)) := by
      rw [List.append_assoc, List.append_assoc]
      exact hinner.append_left _
    exact h1.trans h2

theorem zip_map_flatMap (l : List α) (f : α → β) (F : α → β → List γ) :
    (l.zip (l.map f)).flatMap (fun p => F p.1 p.2) = l.flatMap (fun w => F w (f w)) := by
  induction l with
  | nil => rfl
  | cons x t ih =>
    simp only [List.map_cons, List.zip_cons_cons, List.flatMap_cons]
    rw [ih]

theorem sum_map_flatMap (l : List α) (f : α → List β) (g : β → Nat) :
    (((l.flatMap f).map g)).sum = (l.map (fun x => ((f x).map g).sum)).sum := by
  induction l with
  | nil => rfl
  | cons x t ih =>
    simp only [List.flatMap_cons, List.map_cons, List.map_append, List.sum_append,
      List.sum_cons]
    rw [ih]

theorem sum_map_add_one (l : List α) (f : α → Nat) :
    (l.map (fun x => f x + 1)).sum = (l.map f).sum + l.length := by
  induction l with
  | nil => rfl
  | cons x t ih =>
    simp only [List.map_cons, List.sum_cons, List.length_cons]
    rw [ih]
    omega

/-- The continuation of one walk accounts for strictly less fuel than the walk
itself: a full page advances by `ls ≥ 1` ids, a short page ends the walk. -/
theorem refStep_measure {data : Nat → List Nat}
    (hsorted : ∀ r, (data r).Sorted (· < ·)) {ls : Nat} (hls : 1 ≤ ls) (w : Walk) :
    ((refStep ls w (serveRef data ls w)).map
      (fun w' => (remaining data w').length + 1)).sum ≤ (remaining data w).length := by
  unfold serveRef refStep
  by_cases hfull : ((remaining data w).take ls).length = ls
  · rw [if_pos hfull]
    have hne : (remaining data w).take ls ≠ [] := by
      intro h
      rw [h] at hfull
      simp at hfull
      omega
    obtain ⟨M, hM⟩ : ∃ M, pyMax? ((remaining data w).take ls) = some M := by
      cases h : pyMax? ((remaining data w).take ls) with
      | none => exact absurd (pyMax?_eq_none_iff.mp h) hne
      | some m => exact ⟨m, rfl⟩
    rw [hM]
    simp only [List.map_cons, List.map_nil, List.sum_cons, List.sum_nil]
    rw [remaining_after_full hsorted hls w hM hfull]
    rw [List.length_drop]
    rw [List.length_take] at hfull
    omega
  · rw [if_neg hfull]
    simp

theorem flatMap_flatMap (l : List α) (f : α → List β) (g : β → List γ) :
    (l.flatMap f).flatMap g = l.flatMap (fun x => (f x).flatMap g) := by
  induction l with
  | nil => rfl
  | cons x t ih =>
    simp only [List.flatMap_cons, List.flatMap_append]
    rw [ih]

theorem map_flatMap_comp (l : List α) (f : α → β) (g : β → List γ) :
    (l.map f).flatMap g = l.flatMap (fun x => g (f x)) := by
  induction l with
  | nil => rfl
  | cons x t ih =>
    simp only [List.map_cons, List.flatMap_cons]
    rw [ih]

/-- Main invariant of the fan-out walk: with enough fuel, the loop emits a
permutation of everything its pending walks and remaining update stream will
produce. -/
theorem refLoop_perm (data : Nat → List Nat) (hsorted : ∀ r, (data r).Sorted (· < ·))
    {ls bs : Nat} (hls : 1 ≤ ls) (hbs : 1 ≤ bs) :
    ∀ fuel pending stream, refMeasure data pending stream ≤ fuel →
      List.Perm (refLoop data ls bs fuel pending stream)
        (refItems data pending stream) := by
  intro fuel
  induction fuel with
  | zero =>
    intro pending stream hm
    unfold refMeasure at hm
    have hp : pending = [] := by
      cases pending with
      | nil => rfl
      | cons w t =>
        exfalso
        simp only [List.map_cons, List.sum_cons] at hm
        omega
    have hstr : stream = [] := by
      cases stream with
      | nil => rfl
      | cons r t =>
        exfalso
        simp only [List.map_cons, List.sum_cons] at hm
        omega
    subst hp
    subst hstr
    unfold refLoop refItems
    simp
  | succ fuel ih =>
    intro pending stream hm
    have hserve : batchCalls (serveRef data ls) bs
        (pending ++ (stream.take (bs - pending.length)).map (fun r => (⟨r, none⟩ : Walk))) =
        (pending ++ (stream.take (bs - pending.length)).map
          (fun r => (⟨r, none⟩ : Walk))).map (serveRef data ls) := batchCalls_eq_map hbs _ _
    by_cases hbody :
        (pending ++ (stream.take (bs - pending.length)).map
          (fun r => (⟨r, none⟩ : Walk))).isEmpty
    · -- nothing in flight and nothing left to pull: both sides are empty
      rw [List.isEmpty_iff, List.append_eq_nil] at hbody
      obtain ⟨hp, hpulled⟩ := hbody
      rw [List.map_eq_nil_iff] at hpulled
      have hstr : stream = [] := by
        subst hp
        simp only [List.length_nil, Nat.sub_zero] at hpulled
        rcases List.take_eq_nil_iff.mp hpulled with h | h
        · omega
        · exact h
      subst hp
      subst hstr
      unfold refLoop refItems
      simp
    · -- one round: stream the batch's pages, keep the continuations
      unfold refLoop
      rw [if_neg (by
        rw [Bool.not_eq_true]
        rw [Bool.eq_false_iff]
        exact hbody)]
      rw [hserve]
      simp only []
      set t := bs - pending.length with ht
      set pulled := stream.take t with hpulled
      set body := pending ++ pulled.map (fun r => (⟨r, none⟩ : Walk)) with hbodydef
      have hbody_ne : body ≠ [] := by
        intro h
        rw [h] at hbody
        exact hbody rfl
      have hyields : (body.zip (body.map (serveRef data ls))).flatMap
          (fun p => p.2.map (fun i => (p.1.ref, i))) =
          body.flatMap (fun w => (serveRef data ls w).map (fun i => (w.ref, i))) :=
        zip_map_flatMap body (serveRef data ls)
          (fun w page => page.map (fun i => (w.ref, i)))
      have hconts : (body.zip (body.map (serveRef data ls))).flatMap
          (fun p => refStep ls p.1 p.2) =
          body.flatMap (fun w => refStep ls w (serveRef data ls w)) :=
        zip_map_flatMap body (serveRef data ls) (fun w page => refStep ls w page)
      rw [hyields, hconts]
      -- measure bookkeeping for this round
      have hstep_sum : ((body.flatMap (fun w => refStep ls w (serveRef data ls w))).map
          (fun w => (remaining data w).length + 1)).sum + body.length ≤
          (body.map (fun w => (remaining data w).length + 1)).sum := by
        rw [sum_map_flatMap]
        have hpt : (body.map (fun w =>
            ((refStep ls w (serveRef data ls w)).map
              (fun w' => (remaining data w').length + 1)).sum)).sum ≤
            (body.map (fun w => (remaining data w).length)).sum :=
          List.sum_le_sum (fun w _ => refStep_measure hsorted hls w)
        have := sum_map_add_one body (fun w => (remaining data w).length)
        omega
      have hbody_sum : (body.map (fun w => (remaining data w).length + 1)).sum =
          (pending.map (fun w => (remaining data w).length + 1)).sum +
          (pulled.map (fun r => (data r).length + 1)).sum := by
        rw [hbodydef, List.map_append, List.sum_append, List.map_map]
        have hfun : ((fun w : Walk => (remaining data w).length + 1) ∘
            fun r => (⟨r, none⟩ : Walk)) = (fun r => (data r).length + 1) := by
          funext r
          simp only [Function.comp_apply]
          rw [remaining_none]
        rw [hfun]
      have hstream_sum : (stream.map (fun r => (data r).length + 1)).sum =
          (pulled.map (fun r => (data r).length + 1)).sum +
          ((stream.drop t).map (fun r => (data r).length + 1)).sum := by
        conv_lhs => rw [← List.take_append_drop t stream]
        rw [List.map_append, List.sum_append]
      have hlen1 : 1 ≤ body.length := by
        cases hb : body with
        | nil => exact absurd hb hbody_ne
        | cons a l => simp
      have hm' : refMeasure data
          (body.flatMap (fun w => refStep ls w (serveRef data ls w)))
          (stream.drop t) ≤ fuel := by
        unfold refMeasure at hm ⊢
        rw [hstream_sum] at hm
        omega
      have hrec := ih _ _ hm'
      -- assemble the permutation
      apply List.Perm.trans (List.Perm.append_left _ hrec)
      unfold refItems
      rw [← List.append_assoc]
      have hfront : List.Perm
          (body.flatMap (fun w => (serveRef data ls w).map (fun i => (w.ref, i))) ++
            (body.flatMap (fun w => refStep ls w (serveRef data ls w))).flatMap
              (fun w => (remaining data w).map (fun i => (w.ref, i))))
          (body.flatMap (fun w => (remaining data w).map (fun i => (w.ref, i)))) := by
        rw [flatMap_flatMap]
        apply List.Perm.trans (flatMap_append_perm body _ _).symm
        rw [flatMap_congr_mem (fun w _ => walk_step_items hsorted hls w)]
      apply List.Perm.trans (hfront.append_right _)
      have hbody_items : body.flatMap (fun w => (remaining data w).map (fun i => (w.ref, i))) =
          pending.flatMap (fun w => (remaining data w).map (fun i => (w.ref, i))) ++
          pulled.flatMap (fun r => (data r).map (fun i => (r, i))) := by
        rw [hbodydef, List.flatMap_append, map_flatMap_comp]
        congr 1
        apply flatMap_congr_mem
        intro r _
        rw [remaining_none]
      rw [hbody_items]
      have hstream_items : stream.flatMap (fun r => (data r).map (fun i => (r, i))) =
          pulled.flatMap (fun r => (data r).map (fun i => (r, i))) ++
          (stream.drop t).flatMap (fun r => (data r).map (fun i => (r, i))) := by
        conv_lhs => rw [← List.take_append_drop t stream]
        rw [List.flatMap_append]
      rw [hstream_items, List.append_assoc]

/-! ### Retry (`api.py` lines 28-42, `settings.py` lines 34-36)

`Bitrix24.__init__` wraps `_call`/`_batch` with the third-party `retry`
decorator.  The decorator itself is not part of this repository. -/

/-- Modelled from the spec: the `retry` decorator wrapping `_call`/`_batch`
(third-party library, configured in `Bitrix24.__init__`; spec §4.1 "Retry
policy" and §9 "Retry-as-decorator").  `f k` is the outcome of attempt `k`;
the result pairs the list of sleep delays with the final outcome: an outcome
in the retryable class is retried while attempts remain, sleeping the current
delay and multiplying it by `backoff`; any other error propagates at once;
after the last attempt the last error propagates. -/
def retryRunFrom {α : Type} (f : Nat → Except BError α) (backoff : ℚ) :
    Nat → ℚ → Nat → List ℚ × Except BError α
  | 0, _, k => ([], f k)
  | 1, _, k => ([], f k)
  | tries + 2, delay, k =>
    match f k with
    | .ok a => ([], .ok a)
    | .error e =>
      if e.retryable then
        let rest := retryRunFrom f backoff (tries + 1) (delay * backoff) (k + 1)
        (delay :: rest.1, rest.2)
      else ([], .error e)

/-- One retried call: `tries` total attempts starting from attempt `0`. -/
def retryRun {α : Type} (f : Nat → Except BError α) (tries : Nat) (delay backoff : ℚ) :
    List ℚ × Except BError α :=
  retryRunFrom f backoff tries delay 0

theorem retryRun_fatal {α : Type} {f : Nat → Except BError α} {e : BError}
    (hf : f 0 = .error e) (hnr : e.retryable = false) (tries : Nat) (delay backoff : ℚ) :
    retryRun f tries delay backoff = ([], .error e) := by
  unfold retryRun
  match tries with
  | 0 => unfold retryRunFrom; rw [hf]
  | 1 => unfold retryRunFrom; rw [hf]
  | n + 2 =>
    unfold retryRunFrom
    rw [hf]
    simp only [hnr, Bool.false_eq_true, if_neg, not_false_iff]

theorem retryRunFrom_exhaust {α : Type} {f : Nat → Except BError α} {es : Nat → BError}
    (hall : ∀ k, f k = .error (es k)) (hret : ∀ k, (es k).retryable = true)
    (backoff : ℚ) :
    ∀ tries k delay, 1 ≤ tries →
      retryRunFrom f backoff tries delay k =
        ((List.range (tries - 1)).map (fun i => delay * backoff ^ i),
         .error (es (k + (tries - 1)))) := by
  intro tries
  induction tries with
  | zero => intro k delay h; omega
  | succ n ihn =>
    intro k delay _
    match n with
    | 0 =>
      unfold retryRunFrom
      rw [hall k]
      simp
    | m + 1 =>
      unfold retryRunFrom
      rw [hall k]
      simp only [hret k, if_pos]
      rw [ihn (k + 1) (delay * backoff) (by omega)]
      simp only [Nat.add_sub_cancel]
      have hdelays : delay :: List.map (fun i => delay * backoff * backoff ^ i)
          (List.range m) = List.map (fun i => delay * backoff ^ i) (List.range (m + 1)) := by
        rw [List.range_succ_eq_map]
        simp only [List.map_cons, List.map_map, pow_zero, mul_one]
        congr 1
        apply List.map_congr_left
        intro i _
        simp only [Function.comp_apply]
        rw [pow_succ]
        ring
      have hidx : k + 1 + m = k + (m + 1) := by omega
      rw [hdelays, hidx]

/-- Exhausting all attempts on retryable errors: `tries` attempts, `tries - 1`
sleeps with geometrically increasing delays, last error propagated. -/
theorem retryRun_exhaust {α : Type} {f : Nat → Except BError α} {es : Nat → BError}
    (hall : ∀ k, f k = .error (es k)) (hret : ∀ k, (es k).retryable = true)
    {tries : Nat} (htries : 1 ≤ tries) (delay backoff : ℚ) :
    retryRun f tries delay backoff =
      ((List.range (tries - 1)).map (fun i => delay * backoff ^ i),
       .error (es (tries - 1))) := by
  unfold retryRun
  rw [retryRunFrom_exhaust hall hret backoff tries 0 delay htries]
  simp

/-! ### Consistent-run theorems for the offset-based strategies -/

theorem listSequential_consistent (ds : List α) {ls : Nat} (hls : 1 ≤ ls) :
    listSequential (seqServe ds ls) ls = .ok (0 :: pyRange ls ds.length ls, ds) := by
  unfold listSequential
  simp only []
  have hbad : badNext (seqServe ds ls 0).next ls = false := by
    have := seqServe_badNext ds hls 0
    rw [Nat.zero_add] at this
    exact this
  rw [hbad]
  simp only [Bool.false_eq_true, if_neg, not_false_iff]
  have htot : (seqServe ds ls 0).total = some ds.length := rfl
  rw [htot]
  simp only [Option.getD_some]
  rw [listSequentialTails_consistent ds hls _
    (fun s _ => seqServe_badNext ds hls s)]
  simp only [Except.map]
  have hhead : (seqServe ds ls 0).items = ds.take ls := by
    show (ds.drop 0).take ls = ds.take ls
    rw [List.drop_zero]
  rw [hhead, slices_flatten ds ls hls ls, List.take_append_drop]

theorem listBatched_consistent (ds : List α) {ls bs : Nat} (hls : 1 ≤ ls) (hbs : 1 ≤ bs) :
    listBatched (seqServe ds ls) ls bs = .ok (0 :: pyRange ls ds.length ls, ds) := by
  unfold listBatched
  simp only []
  have hbad : badNext (seqServe ds ls 0).next ls = false := by
    have := seqServe_badNext ds hls 0
    rw [Nat.zero_add] at this
    exact this
  rw [hbad]
  simp only [Bool.false_eq_true, if_neg, not_false_iff]
  have htot : (seqServe ds ls 0).total = some ds.length := rfl
  rw [htot]
  simp only [Option.getD_some]
  rw [batchCalls_eq_map hbs, List.map_map]
  have hhead : (seqServe ds ls 0).items = ds.take ls := by
    show (ds.drop 0).take ls = ds.take ls
    rw [List.drop_zero]
  rw [hhead]
  have hcomp : ((fun r : PageResponse α => r.items) ∘ seqServe ds ls) =
      (fun s => (ds.drop s).take ls) := rfl
  rw [hcomp, slices_flatten ds ls hls ls, List.take_append_drop]

/-- The tail loop succeeds whenever every tail response's `next` validates. -/
theorem listSequentialTails_isOk (call : Nat → PageResponse α) (ls : Nat) :
    ∀ starts, (∀ s ∈ starts, badNext (call s).next (s + ls) = false) →
      ∃ items, listSequentialTails call ls starts = .ok items := by
  intro starts
  induction starts with
  | nil => intro _; exact ⟨[], rfl⟩
  | cons s rest ih =>
    intro hok
    obtain ⟨items, hitems⟩ := ih (fun x hx => hok x (List.mem_cons_of_mem _ hx))
    refine ⟨(call s).items ++ items, ?_⟩
    unfold listSequentialTails
    simp only
    rw [hok s (List.mem_cons_self s rest)]
    simp only [Bool.false_eq_true, if_neg, not_false_iff]
    rw [hitems]
    rfl

/-- An offset whose response carries a bad `next` aborts the tail loop with a
consistency error, provided all earlier offsets validated. -/
theorem listSequentialTails_bad (call : Nat → PageResponse α) (ls : Nat) :
    ∀ pre s post, (∀ x ∈ pre, badNext (call x).next (x + ls) = false) →
      badNext (call s).next (s + ls) = true →
      listSequentialTails call ls (pre ++ s :: post) =
        .error (.consistency "expecting next list chunk to start at start plus list size") := by
  intro pre
  induction pre with
  | nil =>
    intro s post _ hbad
    unfold listSequentialTails
    simp only [List.nil_append]
    rw [hbad]
    simp
  | cons x rest ih =>
    intro s post hok hbad
    unfold listSequentialTails
    simp only [List.cons_append]
    rw [hok x (List.mem_cons_self x rest)]
    simp only [Bool.false_eq_true, if_neg, not_false_iff]
    rw [ih s post (fun y hy => hok y (List.mem_cons_of_mem _ hy)) hbad]
    rfl

/-! ## Claim theorems -/

/-- C7: for every finite sequence of requests in one batch chunk, the
composite request is `batch` with `halt: true` and a `cmd` map assigning the
synthetic keys `_0.._{n-1}` in submission order to each request's query form
(the bare method when parameters are empty, else `method?encode(parameters)`);
on the three-request mixed example the built `cmd` map is exactly
`{_0: "method1", _1: "method2?k=v", _2: "method3?a=1&b=2"}`. -/
theorem batch_composite_request_form :
    (∀ reqs : List Request, buildBatchRequest reqs =
      ⟨"batch",
        [("halt", .vbool true),
         ("cmd", .vdict (reqs.enum.map (fun p => (batchKey p.1, Value.vstr p.2.query))))]⟩) ∧
    (∀ reqs : List Request,
      (reqs.enum.map (fun p => (batchKey p.1, Value.vstr p.2.query))).map Prod.fst =
        (List.range reqs.length).map batchKey) ∧
    (∀ m : String, Request.query ⟨m, []⟩ = m) ∧
    (∀ (m : String) (kv : String × Value) (ps : List (String × Value)),
      Request.query ⟨m, kv :: ps⟩ = m ++ "?" ++ buildQueryStr (kv :: ps)) ∧
    buildBatchRequest
      [⟨"method1", []⟩,
       ⟨"method2", [("k", .vstr "v")]⟩,
       ⟨"method3", [("a", .vint 1), ("b", .vint 2)]⟩] =
    ⟨"batch",
      [("halt", .vbool true),
       ("cmd", .vdict [("_0", .vstr "method1"), ("_1", .vstr "method2?k=v"),
                       ("_2", .vstr "method3?a=1&b=2")])]⟩ := by
  refine ⟨fun reqs => rfl, ?_, fun m => rfl, fun m kv ps => rfl, ?_⟩
  · intro reqs
    rw [List.map_map]
    have h1 : reqs.enum.map (Prod.fst ∘ fun p => (batchKey p.1, Value.vstr p.2.query)) =
        reqs.enum.map (fun p => batchKey p.1) := rfl
    rw [h1]
    have h2 : reqs.enum.map (fun p => batchKey p.1) =
        (reqs.enum.map Prod.fst).map batchKey := by
      rw [List.map_map]
      rfl
    rw [h2, List.enum_map_fst]
  · have hcmd : ([⟨"method1", []⟩,
       ⟨"method2", [("k", .vstr "v")]⟩,
       ⟨"method3", [("a", .vint 1), ("b", .vint 2)]⟩] : List Request).enum.map
          (fun p => (batchKey p.1, Value.vstr p.2.query)) =
        [("_0", .vstr "method1"), ("_1", .vstr "method2?k=v"),
         ("_2", .vstr "method3?a=1&b=2")] := by
      simp [batchKey, Request.query, buildQueryStr, buildQuery, pyEnumerate,
        quotePlus, quotePlusChar, isAlwaysSafe, pyStr, hexDigitChar, List.enum]
      decide
    unfold buildBatchRequest
    rw [hcmd]

/-- C8: normalizing a list-shaped result returns it unchanged; a single-key
map whose sole value is a list yields that inner list; an empty map or empty
list yields the empty list; a multi-key map, a single-key map whose value is
not a list, or a non-list/non-map value raises a fatal internal
(consistency) error. -/
theorem fix_list_result_normalization :
    (∀ xs : List Value, fixListResult (.vlist xs) = .ok xs) ∧
    (∀ (k : String) (xs : List Value), fixListResult (.vdict [(k, .vlist xs)]) = .ok xs) ∧
    fixListResult (.vdict []) = .ok [] ∧
    fixListResult (.vlist []) = .ok [] ∧
    (∀ (k1 k2 : String) (v1 v2 : Value) (rest : List (String × Value)), ∃ m,
      fixListResult (.vdict ((k1, v1) :: (k2, v2) :: rest)) = .error (.consistency m)) ∧
    (∀ k s, ∃ m, fixListResult (.vdict [(k, .vstr s)]) = .error (.consistency m)) ∧
    (∀ (k : String) (n : Int), ∃ m, fixListResult (.vdict [(k, .vint n)]) = .error (.consistency m)) ∧
    (∀ (k : String) (b : Bool), ∃ m, fixListResult (.vdict [(k, .vbool b)]) = .error (.consistency m)) ∧
    (∀ k : String, ∃ m, fixListResult (.vdict [(k, .vnull)]) = .error (.consistency m)) ∧
    (∀ (k : String) (xs : List (String × Value)), ∃ m,
      fixListResult (.vdict [(k, .vdict xs)]) = .error (.consistency m)) ∧
    (∀ s, ∃ m, fixListResult (.vstr s) = .error (.consistency m)) ∧
    (∀ n : Int, ∃ m, fixListResult (.vint n) = .error (.consistency m)) ∧
    (∀ b, ∃ m, fixListResult (.vbool b) = .error (.consistency m)) ∧
    (∃ m, fixListResult .vnull = .error (.consistency m)) := by
  refine ⟨fun xs => rfl, fun k xs => rfl, rfl, rfl,
    fun k1 k2 v1 v2 rest => ⟨_, rfl⟩,
    fun k s => ⟨_, rfl⟩, fun k n => ⟨_, rfl⟩, fun k b => ⟨_, rfl⟩,
    fun k => ⟨_, rfl⟩, fun k xs => ⟨_, rfl⟩,
    fun s => ⟨_, rfl⟩, fun n => ⟨_, rfl⟩, fun b => ⟨_, rfl⟩, ⟨_, rfl⟩⟩

/-- A batch key is "clean" when it has no entry in `result_error` and entries
in both `result` and `result_time`. -/
def cleanKey (br : BatchResult) (j : Nat) : Prop :=
  br.result_error.lookup (batchKey j) = none ∧
    (br.result.lookup (batchKey j)).isSome = true ∧
    (br.result_time.lookup (batchKey j)).isSome = true

instance (br : BatchResult) (j : Nat) : Decidable (cleanKey br j) := by
  unfold cleanKey
  infer_instance

theorem processBatchKeys_error_at (br : BatchResult) (re : List String) :
    ∀ (pre : List Nat) (i : Nat) (post : List Nat) {e : ErrorResponse},
      (∀ j ∈ pre, cleanKey br j) →
      br.result_error.lookup (batchKey i) = some e →
      processBatchKeys br re (pre ++ i :: post) = .error (raiseError e re) := by
  intro pre
  induction pre with
  | nil =>
    intro i post e _ herr
    unfold processBatchKeys
    simp only [List.nil_append]
    rw [herr]
  | cons x rest ih =>
    intro i post e hclean herr
    have hx := hclean x (List.mem_cons_self x rest)
    obtain ⟨hxe, hxr, hxt⟩ := hx
    obtain ⟨res, hres⟩ := Option.isSome_iff_exists.mp hxr
    obtain ⟨tm, htm⟩ := Option.isSome_iff_exists.mp hxt
    unfold processBatchKeys
    simp only [List.cons_append]
    rw [hxe, hres, htm]
    rw [ih i post (fun y hy => hclean y (List.mem_cons_of_mem _ hy)) herr]
    rfl

theorem processBatchKeys_missing_result (br : BatchResult) (re : List String) :
    ∀ (pre : List Nat) (i : Nat) (post : List Nat),
      (∀ j ∈ pre, cleanKey br j) →
      br.result_error.lookup (batchKey i) = none →
      br.result.lookup (batchKey i) = none →
      processBatchKeys br re (pre ++ i :: post) =
        .error (.consistency "result must contain a result for the command") := by
  intro pre
  induction pre with
  | nil =>
    intro i post _ herr hres
    unfold processBatchKeys
    simp only [List.nil_append]
    rw [herr, hres]
  | cons x rest ih =>
    intro i post hclean herr hres
    obtain ⟨hxe, hxr, hxt⟩ := hclean x (List.mem_cons_self x rest)
    obtain ⟨res, hres'⟩ := Option.isSome_iff_exists.mp hxr
    obtain ⟨tm, htm⟩ := Option.isSome_iff_exists.mp hxt
    unfold processBatchKeys
    simp only [List.cons_append]
    rw [hxe, hres', htm]
    rw [ih i post (fun y hy => hclean y (List.mem_cons_of_mem _ hy)) herr hres]
    rfl

theorem processBatchKeys_missing_time (br : BatchResult) (re : List String) :
    ∀ (pre : List Nat) (i : Nat) (post : List Nat) {res : Value},
      (∀ j ∈ pre, cleanKey br j) →
      br.result_error.lookup (batchKey i) = none →
      br.result.lookup (batchKey i) = some res →
      br.result_time.lookup (batchKey i) = none →
      processBatchKeys br re (pre ++ i :: post) =
        .error (.consistency "result_time must contain a result for the command") := by
  intro pre
  induction pre with
  | nil =>
    intro i post res _ herr hres htime
    unfold processBatchKeys
    simp only [List.nil_append]
    rw [herr, hres, htime]
  | cons x rest ih =>
    intro i post res hclean herr hres htime
    obtain ⟨hxe, hxr, hxt⟩ := hclean x (List.mem_cons_self x rest)
    obtain ⟨res', hres'⟩ := Option.isSome_iff_exists.mp hxr
    obtain ⟨tm, htm⟩ := Option.isSome_iff_exists.mp hxt
    unfold processBatchKeys
    simp only [List.cons_append]
    rw [hxe, hres', htm]
    rw [ih i post (fun y hy => hclean y (List.mem_cons_of_mem _ hy)) herr hres htime]
    rfl

/-- Splitting `List.range n` at an inner index. -/
theorem range_split {i n : Nat} (h : i < n) :
    ∃ post, List.range n = List.range i ++ i :: post := by
  obtain ⟨m, rfl⟩ : ∃ m, n = i + (m + 1) := ⟨n - i - 1, by omega⟩
  refine ⟨(List.range m).map (fun x => x + (i + 1)), ?_⟩
  rw [List.range_add]
  congr 1
  rw [List.range_succ_eq_map]
  simp only [List.map_cons, Nat.zero_add, List.map_map]
  congr 1
  apply List.map_congr_left
  intro x _
  simp only [Function.comp_apply]
  omega

/-- C4: for a batch chunk with keys `_0.._{n-1}` processed in submission
order: a key present in `result_error` (all earlier keys clean) makes the
batch raise exactly what a direct call would raise for that error envelope —
`ErrorResponse.raise_error`, i.e. a retryable API error for a retryable code
and a fatal API error otherwise; a clean-prefixed key absent from `result`,
or present in `result` but absent from `result_time`, raises a fatal internal
consistency error, which is distinct from the API and HTTP error classes and
never retryable. -/
theorem batch_item_processing (n : Nat) (br : BatchResult) (re : List String) (i : Nat)
    (hin : i < n) (hpre : ∀ j, j < i → cleanKey br j) :
    (∀ {e : ErrorResponse}, br.result_error.lookup (batchKey i) = some e →
      processBatch n br re = .error (raiseError e re) ∧
      (e.error ∈ re → raiseError e re = .retryApi e.error ∧ (raiseError e re).retryable = true) ∧
      (e.error ∉ re → raiseError e re = .fatalApi e.error ∧ (raiseError e re).retryable = false)) ∧
    (br.result_error.lookup (batchKey i) = none →
      br.result.lookup (batchKey i) = none →
      ∃ m, processBatch n br re = .error (.consistency m)) ∧
    (∀ {res : Value}, br.result_error.lookup (batchKey i) = none →
      br.result.lookup (batchKey i) = some res →
      br.result_time.lookup (batchKey i) = none →
      ∃ m, processBatch n br re = .error (.consistency m)) ∧
    (∀ m, (BError.consistency m).isApi = false ∧ (BError.consistency m).isHttp = false ∧
      (BError.consistency m).retryable = false) := by
  obtain ⟨post, hsplit⟩ := range_split hin
  have hclean : ∀ j ∈ List.range i, cleanKey br j := by
    intro j hj
    exact hpre j (List.mem_range.mp hj)
  refine ⟨?_, ?_, ?_, fun m => ⟨rfl, rfl, rfl⟩⟩
  · intro e herr
    refine ⟨?_, ?_, ?_⟩
    · unfold processBatch
      rw [hsplit]
      exact processBatchKeys_error_at br re (List.range i) i post hclean herr
    · intro hmem
      unfold raiseError
      rw [if_pos hmem]
      exact ⟨rfl, rfl⟩
    · intro hmem
      unfold raiseError
      rw [if_neg hmem]
      exact ⟨rfl, rfl⟩
  · intro herr hres
    refine ⟨"result must contain a result for the command", ?_⟩
    unfold processBatch
    rw [hsplit]
    exact processBatchKeys_missing_result br re (List.range i) i post hclean herr hres
  · intro res herr hres htime
    refine ⟨"result_time must contain a result for the command", ?_⟩
    unfold processBatch
    rw [hsplit]
    exact processBatchKeys_missing_time br re (List.range i) i post hclean herr hres htime

/-- A concrete 3-command batch result whose key `_1` carries a retryable error
envelope (keys `_0` clean). -/
def brWitness : BatchResult :=
  ⟨[("_0", .vstr "r0")], [("_0", .vstr "t0")],
   [("_1", ⟨"operation_time_limit", "limit"⟩)], [], []⟩

theorem batch_item_processing_witness :
    processBatch 3 brWitness defaultRetryErrors = .error (.retryApi "operation_time_limit") := by
  have h := (batch_item_processing 3 brWitness defaultRetryErrors 1 (by decide)
    (fun j hj => by
      have hj0 : j = 0 := by omega
      subst hj0
      decide)).1 (e := ⟨"operation_time_limit", "limit"⟩) (by decide)
  exact h.1.trans (by rfl)

/-- C6: in `list_sequential` and `list_batched` a present, non-zero head
`next` differing from `pageSize` raises a fatal consistency error; in
`list_sequential` a present, non-zero tail `next` differing from
`start + pageSize` (all earlier tails validating) does too; when every
relevant `next` is absent, zero, or equal to the expected cumulative offset,
no such error is raised; consistency errors are never retried. -/
theorem next_offset_validation :
    (∀ {α : Type} (call : Nat → PageResponse α) (ls bs v : Nat),
      (call 0).next = some v → v ≠ 0 → v ≠ ls →
      listSequential call ls =
        .error (.consistency "expecting list chunk size to be list size") ∧
      listBatched call ls bs =
        .error (.consistency "expecting chunk size to be list size")) ∧
    (∀ {α : Type} (call : Nat → PageResponse α) (ls : Nat) (pre : List Nat) (s : Nat)
      (post : List Nat) (v : Nat),
      badNext (call 0).next ls = false →
      pyRange ls ((call 0).total.getD 0) ls = pre ++ s :: post →
      (∀ x ∈ pre, badNext (call x).next (x + ls) = false) →
      (call s).next = some v → v ≠ 0 → v ≠ s + ls →
      listSequential call ls =
        .error (.consistency "expecting next list chunk to start at start plus list size")) ∧
    (∀ {α : Type} (call : Nat → PageResponse α) (ls bs : Nat),
      badNext (call 0).next ls = false →
      (∀ s ∈ pyRange ls ((call 0).total.getD 0) ls, badNext (call s).next (s + ls) = false) →
      (∃ out, listSequential call ls = .ok out) ∧ (∃ out, listBatched call ls bs = .ok out)) ∧
    (∀ m, (BError.consistency m).retryable = false) := by
  refine ⟨?_, ?_, ?_, fun m => rfl⟩
  · intro α call ls bs v hv hv0 hvls
    have hbad : badNext (call 0).next ls = true := by
      unfold badNext
      rw [hv]
      simp only [Bool.and_eq_true, ne_eq, decide_eq_true_eq]
      constructor
      · simpa using hv0
      · simpa using hvls
    constructor
    · unfold listSequential
      simp only []
      rw [hbad]
      simp
    · unfold listBatched
      simp only []
      rw [hbad]
      simp
  · intro α call ls pre s post v hhead hstarts hok hv hv0 hvs
    unfold listSequential
    simp only []
    rw [hhead]
    simp only [Bool.false_eq_true, if_neg, not_false_iff]
    rw [hstarts]
    have hbads : badNext (call s).next (s + ls) = true := by
      unfold badNext
      rw [hv]
      simp only [Bool.and_eq_true, ne_eq, decide_eq_true_eq]
      exact ⟨by simpa using hv0, by simpa using hvs⟩
    rw [listSequentialTails_bad call ls pre s post hok hbads]
    rfl
  · intro α call ls bs hhead hok
    constructor
    · obtain ⟨items, hitems⟩ := listSequentialTails_isOk call ls _ hok
      refine ⟨(0 :: pyRange ls ((call 0).total.getD 0) ls, (call 0).items ++ items), ?_⟩
      unfold listSequential
      simp only []
      rw [hhead]
      simp only [Bool.false_eq_true, if_neg, not_false_iff]
      rw [hitems]
      rfl
    · refine ⟨(0 :: pyRange ls ((call 0).total.getD 0) ls,
        (call 0).items ++ ((batchCalls call bs
          (pyRange ls ((call 0).total.getD 0) ls)).map (fun r => r.items)).flatten), ?_⟩
      unfold listBatched
      simp only []
      rw [hhead]
      simp only [Bool.false_eq_true, if_neg, not_false_iff]

theorem next_offset_validation_witness :
    listSequential (fun _ => (⟨([] : List Nat), some 100, some 7⟩ : PageResponse Nat)) 50 =
      .error (.consistency "expecting list chunk size to be list size") ∧
    listBatched (fun _ => (⟨([] : List Nat), some 100, some 7⟩ : PageResponse Nat)) 50 10 =
      .error (.consistency "expecting chunk size to be list size") :=
  next_offset_validation.1 (fun _ => ⟨[], some 100, some 7⟩) 50 10 7 rfl
    (by decide) (by decide)

/-- C10: when the head response of `list_sequential`/`list_batched` carries no
usable `total` (absent, null via absence, or zero), the missing count is
treated as zero: only the head page's items are yielded and no tail request
offsets are generated at all. -/
theorem absent_total_yields_head_only {α : Type} (call : Nat → PageResponse α)
    (ls bs : Nat) (htot : (call 0).total = none ∨ (call 0).total = some 0)
    (hhead : badNext (call 0).next ls = false) :
    listSequential call ls = .ok ([0], (call 0).items) ∧
    listBatched call ls bs = .ok ([0], (call 0).items) := by
  have htot0 : (call 0).total.getD 0 = 0 := by
    rcases htot with h | h <;> rw [h] <;> rfl
  have hstarts : pyRange ls ((call 0).total.getD 0) ls = [] := by
    rw [htot0]
    exact pyRange_eq_nil_of_le (Nat.zero_le ls)
  constructor
  · unfold listSequential
    simp only []
    rw [hhead]
    simp only [Bool.false_eq_true, if_neg, not_false_iff]
    rw [hstarts]
    unfold listSequentialTails
    simp [Except.map]
  · unfold listBatched
    simp only []
    rw [hhead]
    simp only [Bool.false_eq_true, if_neg, not_false_iff]
    rw [hstarts]
    have : batchCalls call bs ([] : List Nat) = [] := by
      unfold batchCalls
      rw [chunkList_nil]
      rfl
    rw [this]
    simp

theorem absent_total_yields_head_only_witness :
    listSequential (fun _ => (⟨[7, 8], none, none⟩ : PageResponse Nat)) 50 =
      .ok ([0], [7, 8]) ∧
    listBatched (fun _ => (⟨[7, 8], none, none⟩ : PageResponse Nat)) 50 10 =
      .ok ([0], [7, 8]) :=
  absent_total_yields_head_only (fun _ => ⟨[7, 8], none, none⟩) 50 10 (Or.inl rfl) rfl

/-- C9: a call whose every attempt fails with a retryable error (retryable
HTTP status, retryable API code, or transport error) is retried exactly
`tries - 1` additional times with sleeps `delay, delay*backoff,
delay*backoff^2, ...`, after which the last error propagates; a call failing
with a non-retryable error is surfaced on the first failure with zero
retries.  Defaults: `tries = 5`, `delay = 5`, `backoff = 2`
(`settings.py` lines 34-36).  The retry combinator itself is the third-party
`retry` decorator, modelled from the spec. -/
theorem retry_policy :
    (∀ {α : Type} (f : Nat → Except BError α) (es : Nat → BError) (tries : Nat)
      (delay backoff : ℚ),
      (∀ k, f k = .error (es k)) → (∀ k, (es k).retryable = true) → 1 ≤ tries →
      retryRun f tries delay backoff =
        ((List.range (tries - 1)).map (fun i => delay * backoff ^ i),
         .error (es (tries - 1)))) ∧
    (∀ {α : Type} (f : Nat → Except BError α) (e : BError) (tries : Nat)
      (delay backoff : ℚ),
      f 0 = .error e → e.retryable = false →
      retryRun f tries delay backoff = ([], .error e)) ∧
    defaultRetryTries = 5 ∧ defaultRetryDelay = 5 ∧ defaultRetryBackoff = 2 ∧
    (∀ st, (BError.retryHttp st).retryable = true) ∧
    (∀ c, (BError.retryApi c).retryable = true) ∧
    (∀ m, (BError.transport m).retryable = true) ∧
    (∀ st, (BError.fatalHttp st).retryable = false) ∧
    (∀ c, (BError.fatalApi c).retryable = false) := by
  refine ⟨?_, ?_, rfl, rfl, rfl, fun st => rfl, fun c => rfl, fun m => rfl,
    fun st => rfl, fun c => rfl⟩
  · intro α f es tries delay backoff hall hret htries
    exact retryRun_exhaust hall hret htries delay backoff
  · intro α f e tries delay backoff hf hnr
    exact retryRun_fatal hf hnr tries delay backoff

theorem retry_policy_witness :
    retryRun (fun _ => (.error (.retryApi "query_limit_exceeded") : Except BError Nat))
      5 5 2 = ([5, 10, 20, 40], .error (.retryApi "query_limit_exceeded")) := by
  have h := retry_policy.1 (fun _ => (.error (.retryApi "query_limit_exceeded") :
    Except BError Nat)) (fun _ => .retryApi "query_limit_exceeded") 5 5 2
    (fun k => rfl) (fun k => rfl) (by omega)
  rw [h]
  norm_num [List.range_succ]

/-- C3: in the reference walk, a page whose item count equals `pageSize`
produces exactly one continuation request for the same reference value with
the `>{id_key}` cursor at the page's maximum id; a page with fewer items
produces no continuation; and a one-walk round of the loop streams the page
then continues with exactly that continuation set. -/
theorem reference_continuation_step (ls : Nat) (hls : 1 ≤ ls) (w : Walk)
    (items : List Nat) :
    (items.length = ls →
      ∃ M, pyMax? items = some M ∧ refStep ls w items = [⟨w.ref, some M⟩] ∧
        M ∈ items ∧ (∀ i ∈ items, i ≤ M)) ∧
    (items.length < ls → refStep ls w items = []) ∧
    (∀ (data : Nat → List Nat) (bs fuel : Nat), 1 ≤ bs →
      refLoop data ls bs (fuel + 1) [w] [] =
        (serveRef data ls w).map (fun i => (w.ref, i)) ++
          refLoop data ls bs fuel (refStep ls w (serveRef data ls w)) []) := by
  refine ⟨?_, ?_, ?_⟩
  · intro hfull
    have hne : items ≠ [] := by
      intro h
      rw [h] at hfull
      simp at hfull
      omega
    obtain ⟨M, hM⟩ : ∃ M, pyMax? items = some M := by
      cases h : pyMax? items with
      | none => exact absurd (pyMax?_eq_none_iff.mp h) hne
      | some m => exact ⟨m, rfl⟩
    refine ⟨M, hM, ?_, pyMax?_mem hM, le_pyMax? hM⟩
    unfold refStep
    rw [if_pos hfull, hM]
  · intro hshort
    unfold refStep
    rw [if_neg (by omega)]
  · intro data bs fuel hbs
    unfold refLoop
    simp only [List.take_nil, List.map_nil, List.append_nil]
    rw [if_neg (by simp)]
    rw [batchCalls_eq_map hbs]
    simp only [List.map_cons, List.map_nil, List.zip_cons_cons, List.zip_nil_right,
      List.flatMap_cons, List.flatMap_nil, List.append_nil, List.drop_nil]
    congr 1
    cases fuel with
    | zero => rfl
    | succ n => rfl

theorem reference_continuation_step_witness :
    refStep 2 ⟨7, none⟩ [3, 9] = [⟨7, some 9⟩] ∧ refStep 2 ⟨7, none⟩ [3] = [] := by
  have h := reference_continuation_step 2 (by omega) ⟨7, none⟩ [3, 9]
  obtain ⟨M, hM, hstep, _, _⟩ := h.1 (by decide)
  have hM9 : M = 9 := by
    have : pyMax? [3, 9] = some 9 := by decide
    rw [this] at hM
    injection hM
    omega
  subst hM9
  refine ⟨hstep, ?_⟩
  exact (reference_continuation_step 2 (by omega) ⟨7, none⟩ [3]).2.1 (by decide)

/-- C5 (at the failing input): with an explicit `select` naming neither `"*"`
nor the id key, both no-count strategies fail with an `AttributeError` from
`request.select` instead of appending the id key to `parameters.select`. -/
theorem select_append_attribute_error :
    listBatchedNoCount ⟨["TITLE"], [], []⟩ "ID" (ncServe [1] 50) 50 50 =
      .error (.attrError "ListRequest object has no attribute select") ∧
    refBatchedNoCount ⟨["TITLE"], [], []⟩ "ID" (fun _ => []) [] 50 50 0 =
      .error (.attrError "ListRequest object has no attribute select") := by
  constructor
  · rfl
  · rfl

theorem pyRange_mem {step : Nat} (hstep : step ≠ 0) :
    ∀ a b, ∀ s ∈ pyRange a b step, a ≤ s ∧ s < b := by
  intro a b
  by_cases hab : b ≤ a
  · rw [pyRange_eq_nil_of_le hab]
    intro s hs
    simp at hs
  · push_neg at hab
    rw [pyRange_eq_cons hab hstep]
    intro s hs
    rcases List.mem_cons.mp hs with rfl | hs'
    · omega
    · have := pyRange_mem hstep (a + step) b s hs'
      omega
termination_by a b => b - a
decreasing_by
  omega

theorem pyRange_pairwise_gap {step : Nat} (hstep : step ≠ 0) :
    ∀ a b, List.Pairwise (fun x y => x + step ≤ y) (pyRange a b step) := by
  intro a b
  by_cases hab : b ≤ a
  · rw [pyRange_eq_nil_of_le hab]
    exact List.Pairwise.nil
  · push_neg at hab
    rw [pyRange_eq_cons hab hstep]
    refine List.Pairwise.cons ?_ (pyRange_pairwise_gap hstep (a + step) b)
    intro y hy
    exact (pyRange_mem hstep (a + step) b y hy).1
termination_by a b => b - a
decreasing_by
  omega

theorem bodyReqs_union {ls : Nat} (hls : 1 ≤ ls) :
    ∀ a b, a < b →
      ((bodyReqs a b ls).map (fun p => Finset.Ioo p.1 p.2)).foldr (· ∪ ·) ∅ =
        Finset.Ioo a b := by
  intro a b hab
  unfold bodyReqs
  rw [pyRange_eq_cons hab (by omega)]
  simp only [List.map_cons, List.foldr_cons]
  by_cases hend : b ≤ a + ls
  · have hmin : min (a + ls + 1) b = b := by omega
    rw [hmin]
    have hnil : pyRange (a + ls) b ls = [] := pyRange_eq_nil_of_le hend
    rw [hnil]
    simp
  · push_neg at hend
    have hmin : min (a + ls + 1) b = a + ls + 1 := by omega
    rw [hmin]
    have hrest := bodyReqs_union hls (a + ls) b hend
    unfold bodyReqs at hrest
    rw [hrest]
    ext x
    simp only [Finset.mem_union, Finset.mem_Ioo]
    omega
termination_by a b => b - a
decreasing_by
  omega

/-- C2 fails as stated: with both boundary pages non-empty, `maxHead = 1` and
`minTail = 2` (adjacent, zero gap-filling pages required), the code still
issues one body request, bounding the empty open range `(1, 2)`. -/
theorem gap_requests_counterexample :
    specRequiredPages 1 2 50 = 0 ∧
    issuedBodyReqs (some 1) (some 2) 50 = [(1, 2)] ∧
    (issuedBodyReqs (some 1) (some 2) 50).length ≠ specRequiredPages 1 2 50 := by
  decide

/-- C2 (amended): with both boundary ids positive, no body request is issued
when `maxHead >= minTail`; when `maxHead < minTail` the generator is consumed
and issues exactly `ceil((minTail - maxHead) / pageSize)` body requests — at
least the `K = ceil((minTail - maxHead - 1) / pageSize)` required pages and at
most one more (the extra trailing request bounding an empty sub-range) — each
carrying the range filter `(start, min(start + pageSize + 1, minTail))`,
covering at most `pageSize` ids, pairwise disjoint, and together covering the
open interval `(maxHead, minTail)` with no gap. -/
theorem gap_requests_partition (mh mt ls : Nat) (hmh : 0 < mh) (hls : 1 ≤ ls) :
    (mt ≤ mh → issuedBodyReqs (some mh) (some mt) ls = []) ∧
    (mh < mt →
      issuedBodyReqs (some mh) (some mt) ls = bodyReqs mh mt ls ∧
      (bodyReqs mh mt ls).length = (mt - mh + ls - 1) / ls ∧
      specRequiredPages mh mt ls ≤ (bodyReqs mh mt ls).length ∧
      (bodyReqs mh mt ls).length ≤ specRequiredPages mh mt ls + 1 ∧
      (∀ p ∈ bodyReqs mh mt ls,
        mh ≤ p.1 ∧ p.1 < mt ∧ p.2 = min (p.1 + ls + 1) mt ∧
        (Finset.Ioo p.1 p.2).card ≤ ls) ∧
      List.Pairwise (fun p q => Disjoint (Finset.Ioo p.1 p.2) (Finset.Ioo q.1 q.2))
        (bodyReqs mh mt ls) ∧
      ((bodyReqs mh mt ls).map (fun p => Finset.Ioo p.1 p.2)).foldr (· ∪ ·) ∅ =
        Finset.Ioo mh mt) := by
  constructor
  · intro hle
    unfold issuedBodyReqs
    rw [if_neg]
    simp only [Bool.and_eq_true, decide_eq_true_eq, Option.getD_some]
    intro hcon
    omega
  · intro hlt
    have hissued : issuedBodyReqs (some mh) (some mt) ls = bodyReqs mh mt ls := by
      unfold issuedBodyReqs truthy
      rw [if_pos]
      · rfl
      · simp only [Option.getD_some, Bool.and_eq_true, decide_eq_true_eq]
        exact ⟨⟨by omega, by omega⟩, hlt⟩
    refine ⟨hissued, ?_, ?_, ?_, ?_, ?_, ?_⟩
    · unfold bodyReqs
      rw [List.length_map, pyRange_length (by omega)]
    · unfold bodyReqs specRequiredPages
      rw [List.length_map, pyRange_length (by omega)]
      apply Nat.div_le_div_right
      omega
    · unfold bodyReqs specRequiredPages
      rw [List.length_map, pyRange_length (by omega)]
      have h1 : mt - mh + ls - 1 = (mt - mh - 1) + ls := by omega
      rw [h1, Nat.add_div_right _ (by omega)]
      have h2 : (mt - mh - 1) / ls ≤ (mt - mh - 1 + ls - 1) / ls :=
        Nat.div_le_div_right (by omega)
      omega
    · intro p hp
      unfold bodyReqs at hp
      rw [List.mem_map] at hp
      obtain ⟨s, hs, rfl⟩ := hp
      have hsb := pyRange_mem (by omega : ls ≠ 0) mh mt s hs
      refine ⟨hsb.1, hsb.2, rfl, ?_⟩
      rw [Nat.card_Ioo]
      omega
    · unfold bodyReqs
      rw [List.pairwise_map]
      apply List.Pairwise.imp ?_ (pyRange_pairwise_gap (by omega : ls ≠ 0) mh mt)
      intro x y hxy
      rw [Finset.disjoint_left]
      intro z hz1 hz2
      rw [Finset.mem_Ioo] at hz1 hz2
      have h1 : z < min (x + ls + 1) mt := hz1.2
      have h2 : y < z := hz2.1
      omega
    · exact bodyReqs_union hls mh mt hlt

theorem gap_requests_partition_witness :
    issuedBodyReqs (some 10) (some 61) 50 = bodyReqs 10 61 50 ∧
    (bodyReqs 10 61 50).length = 2 ∧
    ((bodyReqs 10 61 50).map (fun p => Finset.Ioo p.1 p.2)).foldr (· ∪ ·) ∅ =
      Finset.Ioo 10 61 := by
  have h := (gap_requests_partition 10 61 50 (by omega) (by omega)).2 (by omega)
  refine ⟨h.1, ?_, h.2.2.2.2.2.2⟩
  rw [h.2.1]

/-- C1 fails as stated on `list_batched_no_count`: (i) a well-formed request
(no reserved filter/order keys) whose `select` names neither `"*"` nor the id
key makes the strategy raise `AttributeError` before issuing any request, so
nothing is yielded; (ii) with ids starting at `0` and `pageSize = 1`, the
falsy `max_head_id` (`0`) skips gap-filling and the dataset item `2` is
silently omitted. -/
theorem pagination_full_dataset_counterexample :
    listBatchedNoCount ⟨["TITLE"], [], []⟩ "ID" (ncServe [1] 50) 50 50 ≠ .ok [1] ∧
    listBatchedNoCount ⟨["*"], [], []⟩ "ID" (ncServe [0, 2, 5] 1) 1 1 = .ok [0, 5] ∧
    (Except.ok [0, 5] : Except BError (List Nat)) ≠ .ok [0, 2, 5] := by
  refine ⟨by decide, by decide, by decide⟩

/-- C1 (amended): for every consistent dataset and every `pageSize >= 1`,
`batchSize >= 1`: `list_sequential` and `list_batched` yield exactly the full
dataset in order; `list_batched_no_count` yields exactly the full dataset in
order for every strictly ascending dataset of positive ids and every
well-formed request whose `select` also names `"*"` or the id key (otherwise
the code raises `AttributeError`, see the counterexample);
`reference_batched_no_count` yields a permutation — every item exactly once —
of the union of the per-reference datasets, for per-reference strictly
ascending ids and a well-formed request with the same `select` proviso. -/
theorem pagination_full_dataset :
    (∀ {α : Type} (ds : List α) (ls bs : Nat), 1 ≤ ls → 1 ≤ bs →
      listSequential (seqServe ds ls) ls = .ok (0 :: pyRange ls ds.length ls, ds) ∧
      listBatched (seqServe ds ls) ls bs = .ok (0 :: pyRange ls ds.length ls, ds)) ∧
    (∀ ids : List Nat, ids.Sorted (· < ·) → (∀ i ∈ ids, 0 < i) →
      ∀ ls bs : Nat, 1 ≤ ls → 1 ≤ bs →
      ∀ (req : NCRequest) (idKey : String),
        ("*" ∈ req.select ∨ idKey ∈ req.select) →
        (">" ++ idKey) ∉ req.filterKeys → ("<" ++ idKey) ∉ req.filterKeys →
        req.orderKeys = [] →
        listBatchedNoCount req idKey (ncServe ids ls) ls bs = .ok ids) ∧
    (∀ (data : Nat → List Nat) (refs : List Nat), (∀ r, (data r).Sorted (· < ·)) →
      ∀ ls bs fuel : Nat, 1 ≤ ls → 1 ≤ bs → refMeasure data [] refs ≤ fuel →
      ∀ (req : NCRequest) (idKey : String),
        ("*" ∈ req.select ∨ idKey ∈ req.select) →
        (">" ++ idKey) ∉ req.filterKeys → req.orderKeys = [] →
        ∃ out, refBatchedNoCount req idKey data refs ls bs fuel = .ok out ∧
          List.Perm out (refs.flatMap (fun r => (data r).map (fun i => (r, i))))) := by
  refine ⟨?_, ?_, ?_⟩
  · intro α ds ls bs hls hbs
    exact ⟨listSequential_consistent ds hls, listBatched_consistent ds hls hbs⟩
  · intro ids hs hpos ls bs hls hbs req idKey hsel hf1 hf2 ho
    exact listBatchedNoCount_consistent ids hs hpos hls hbs req idKey hsel hf1 hf2 ho
  · intro data refs hsorted ls bs fuel hls hbs hfuel req idKey hsel hf1 ho
    refine ⟨refLoop data ls bs fuel [] refs, ?_, ?_⟩
    · unfold refBatchedNoCount
      rw [if_neg (by tauto), if_neg hf1, if_neg (by simp [ho])]
    · have h := refLoop_perm data hsorted hls hbs fuel [] refs hfuel
      unfold refItems at h
      simpa using h

/-- Per-reference dataset used by the C1 witness. -/
def datWitness : Nat → List Nat :=
  fun r => if r = 1 then [10, 11] else if r = 2 then [20] else []

theorem pagination_full_dataset_witness :
    listSequential (seqServe [10, 20, 30] 2) 2 = .ok ([0, 2], [10, 20, 30]) ∧
    listBatched (seqServe [10, 20, 30] 2) 2 1 = .ok ([0, 2], [10, 20, 30]) ∧
    listBatchedNoCount ⟨["*"], [], []⟩ "ID" (ncServe [1, 2, 3, 4, 5] 2) 2 2 =
      .ok [1, 2, 3, 4, 5] ∧
    (∃ out, refBatchedNoCount ⟨["ID"], [], []⟩ "ID" datWitness [1, 2] 1 2 10 = .ok out ∧
      List.Perm out ([1, 2].flatMap (fun r => (datWitness r).map (fun i => (r, i))))) := by
  have hseq := (pagination_full_dataset.1 [10, 20, 30] 2 1 (by omega) (by omega))
  have hpy : (0 :: pyRange 2 3 2) = [0, 2] := by decide
  have hnc := pagination_full_dataset.2.1 [1, 2, 3, 4, 5] (by decide) (by decide)
    2 2 (by omega) (by omega) ⟨["*"], [], []⟩ "ID" (by decide) (by decide) (by decide)
    (by decide)
  have hsorted : ∀ r, (datWitness r).Sorted (· < ·) := by
    intro r
    unfold datWitness
    by_cases h1 : r = 1
    · rw [if_pos h1]
      decide
    · rw [if_neg h1]
      by_cases h2 : r = 2
      · rw [if_pos h2]
        decide
      · rw [if_neg h2]
        decide
  have href := pagination_full_dataset.2.2 datWitness [1, 2] hsorted 1 2 10
    (by omega) (by omega) (by decide) ⟨["ID"], [], []⟩ "ID" (by simp) (by decide)
    (by decide)
  have hlen : ([10, 20, 30] : List Nat).length = 3 := rfl
  rw [hlen, hpy] at hseq
  exact ⟨hseq.1, hseq.2, hnc, href⟩

end B24
